import Mathlib

/-!
# A skip list over a pointer heap

A shallow embedding of `main.c`: the level generator, the predecessor search,
lookup, insertion and the diagnostic traversal, over an explicit heap of
node arrays.

* An allocation (`malloc` of `n` nodes) is one list of nodes; the heap is the
  list of allocations, in allocation order.
* A pointer is an allocation index and an offset inside it, so that
  `node - node->level`, `--node` and `prev_node[i]` are offset arithmetic.
* Every operation returns `Except Fault _`: a failed `assert`, a NULL
  dereference, an access outside an allocation, or a loop that does not
  finish within the number of nodes of the heap.
-/

namespace Skiplist

/-! ## Data model -/

/-- Ways in which the C program leaves defined behaviour or aborts. -/
inductive Fault where
  | assertion
  | null_deref
  | out_of_bounds
  | diverged
deriving DecidableEq, Repr

deriving instance DecidableEq for Except

/-- Address of one node: the allocation and the offset inside it. -/
structure Ptr where
  entry : Nat
  off : Nat
deriving DecidableEq, Repr

/-- The C struct `skiplist_node_t`; `none` is NULL. -/
structure skiplist_node_t where
  next : Option Ptr
  prev : Option Ptr
  level : Nat
  num_levels : Nat
  value : Int
deriving DecidableEq, Repr

/-- The allocations made so far, each an array of nodes. -/
abbrev Heap := List (List skiplist_node_t)

/-- The C struct `skiplist_t`. The float `p` is kept as the test it induces
on a draw `k = rand() % 100`, namely `(float)k / 100.f < p`. -/
structure skiplist_t where
  head : Option Ptr
  max_num_levels : Nat
  p : Nat → Bool

/-- The C struct `skiplist_element_info_t`. -/
structure skiplist_element_info_t where
  level : Int
  value : Int
  exists_ : Bool
deriving DecidableEq, Repr

/-- Hidden state of the level generator: the function-local `static bool first`
and the values that `rand()` is still going to return. -/
structure gen_state where
  first : Bool
  rand : Nat → Nat

/-- State of the process outside the list handle. -/
structure World where
  heap : Heap
  gen : gen_state

/-! ## Heap access -/

/-- Node stored at a pointer, if the pointer is inside an allocation. -/
def Heap.get (h : Heap) (p : Ptr) : Option skiplist_node_t :=
  match h[p.entry]? with
  | none => none
  | some arr => arr[p.off]?

/-- Read through a non-NULL pointer. -/
def load (h : Heap) (p : Ptr) : Except Fault skiplist_node_t :=
  match h.get p with
  | none => .error .out_of_bounds
  | some n => .ok n

/-- Unchecked overwrite of the node at a pointer. -/
def Heap.put (h : Heap) (p : Ptr) (n : skiplist_node_t) : Heap :=
  match h[p.entry]? with
  | none => h
  | some arr => h.set p.entry (arr.set p.off n)

/-- Write through a non-NULL pointer. -/
def store (h : Heap) (p : Ptr) (n : skiplist_node_t) : Except Fault Heap :=
  match h.get p with
  | none => .error .out_of_bounds
  | some _ => .ok (h.put p n)

/-- Assignment `p->next = q`. -/
def set_next (h : Heap) (p : Ptr) (q : Option Ptr) : Except Fault Heap :=
  match load h p with
  | .error e => .error e
  | .ok n => store h p { n with next := q }

/-- Assignment `p->prev = q`. -/
def set_prev (h : Heap) (p : Ptr) (q : Option Ptr) : Except Fault Heap :=
  match load h p with
  | .error e => .error e
  | .ok n => store h p { n with prev := q }

/-- Assignment `p->value = v`. -/
def set_value (h : Heap) (p : Ptr) (v : Int) : Except Fault Heap :=
  match load h p with
  | .error e => .error e
  | .ok n => store h p { n with value := v }

/-- Number of nodes in the heap. -/
def Heap.size (h : Heap) : Nat := (h.map List.length).sum

/-- Step budget of every pointer-chasing loop: no loop over a heap whose
chains are acyclic visits more nodes than the heap holds. -/
def Heap.fuel (h : Heap) : Nat := h.size + 2

/-! ## `skiplist_head_of`, `new_skiplist` -/

/-- `node - node->level`. -/
def skiplist_head_of (h : Heap) (node : Ptr) : Except Fault Ptr :=
  match load h node with
  | .error e => .error e
  | .ok n => if n.level ≤ node.off then .ok ⟨node.entry, node.off - n.level⟩
             else .error .out_of_bounds

/-- `new_skiplist(num_levels, p)`. -/
def new_skiplist (num_levels : Nat) (p : Nat → Bool) : skiplist_t :=
  { head := none, max_num_levels := num_levels, p := p }

/-! ## Level generator -/

/-- The `while` loop of `generate_level_for_new_node`. Every evaluation of the
loop condition calls `rand()` once, before `level < max_num_levels` is looked
at. The first argument bounds the number of evaluations. -/
def level_loop (max_num_levels : Nat) (p : Nat → Bool) :
    Nat → Nat → (Nat → Nat) → Nat × (Nat → Nat)
  | 0, level, rand => (level, rand)
  | fuel + 1, level, rand =>
    if p (rand 0 % 100) && decide (level < max_num_levels) then
      level_loop max_num_levels p fuel (level + 1) (fun n => rand (n + 1))
    else (level, fun n => rand (n + 1))

/-- `generate_level_for_new_node(max_num_levels, p)`. The loop condition is
evaluated at most `max_num_levels` times (once when `max_num_levels = 0`). -/
def generate_level_for_new_node (max_num_levels : Nat) (p : Nat → Bool)
    (g : gen_state) : Nat × gen_state :=
  if g.first then (max_num_levels, { g with first := false })
  else
    let r := level_loop max_num_levels p (max_num_levels + 1) 1 g.rand
    (r.1, { g with rand := r.2 })

/-! ## Predecessor search and lookup -/

/-- First inner loop of the search:
`while ((node->next == NULL || node->next->value > value) && node->level > 0) --node;` -/
def descend (h : Heap) (value : Int) : Nat → Ptr → Except Fault Ptr
  | 0, _ => .error .diverged
  | fuel + 1, node =>
    match load h node with
    | .error e => .error e
    | .ok n =>
      let blocked : Except Fault Bool :=
        match n.next with
        | none => .ok true
        | some q =>
          match load h q with
          | .error e => .error e
          | .ok nx => .ok (decide (nx.value > value))
      match blocked with
      | .error e => .error e
      | .ok b =>
        if b && decide (n.level > 0) then
          if node.off = 0 then .error .out_of_bounds
          else descend h value fuel ⟨node.entry, node.off - 1⟩
        else .ok node

/-- Second inner loop of the search:
`while (node->next && node->next->value <= value) node = node->next;` -/
def advance (h : Heap) (value : Int) : Nat → Ptr → Except Fault Ptr
  | 0, _ => .error .diverged
  | fuel + 1, node =>
    match load h node with
    | .error e => .error e
    | .ok n =>
      match n.next with
      | none => .ok node
      | some q =>
        match load h q with
        | .error e => .error e
        | .ok nx => if nx.value ≤ value then advance h value fuel q else .ok node

/-- Outer loop of the search, `while (node->level > 0) { ... }`. -/
def search_loop (h : Heap) (value : Int) : Nat → Ptr → Except Fault Ptr
  | 0, _ => .error .diverged
  | fuel + 1, node =>
    match load h node with
    | .error e => .error e
    | .ok n =>
      if n.level > 0 then
        match descend h value h.fuel node with
        | .error e => .error e
        | .ok node1 =>
          match advance h value h.fuel node1 with
          | .error e => .error e
          | .ok node2 => search_loop h value fuel node2
      else .ok node

/-- `_skiplist_find_headnode_predecessor(node, value)`. The argument is always
computed from a non-NULL head, so `assert(node != NULL)` is the type. -/
def _skiplist_find_headnode_predecessor (h : Heap) (node : Ptr) (value : Int) :
    Except Fault Ptr :=
  match load h node with
  | .error e => .error e
  | .ok n =>
    if n.value ≤ value then
      match search_loop h value h.fuel node with
      | .error e => .error e
      | .ok r => skiplist_head_of h r
    else .error .assertion

/-- The pointer `head + head->num_levels - 1`. -/
def top_of (h : Heap) (head : Ptr) : Except Fault Ptr :=
  match load h head with
  | .error e => .error e
  | .ok n => if head.off + n.num_levels = 0 then .error .out_of_bounds
             else .ok ⟨head.entry, head.off + n.num_levels - 1⟩

/-- `_skiplist_find(self, value)`. -/
def _skiplist_find (h : Heap) (self : skiplist_t) (value : Int) :
    Except Fault (Option Ptr) :=
  match self.head with
  | none => .ok none
  | some head =>
    match top_of h head with
    | .error e => .error e
    | .ok top =>
      match _skiplist_find_headnode_predecessor h top value with
      | .error e => .error e
      | .ok head_of_pred =>
        match load h head_of_pred with
        | .error e => .error e
        | .ok n => if n.value = value then .ok (some head_of_pred) else .ok none

/-- `skiplist_get_element_info(self, value)`. -/
def skiplist_get_element_info (h : Heap) (self : skiplist_t) (value : Int) :
    Except Fault skiplist_element_info_t :=
  match _skiplist_find h self value with
  | .error e => .error e
  | .ok none => .ok { level := 0, value := 0, exists_ := false }
  | .ok (some head_of_node) =>
    match load h head_of_node with
    | .error e => .error e
    | .ok n => .ok { level := n.level, value := n.value, exists_ := true }

/-- `skiplist_contains(self, value)`. -/
def skiplist_contains (h : Heap) (self : skiplist_t) (value : Int) :
    Except Fault Bool :=
  match skiplist_get_element_info h self value with
  | .error e => .error e
  | .ok info => .ok info.exists_

/-! ## Insertion -/

/-- The freshly allocated array of `skiplist_insert`, after its first loop. -/
def init_nodes (level_of_new_node : Nat) (value : Int) : List skiplist_node_t :=
  (List.range level_of_new_node).map fun level =>
    { next := none, prev := none, level := level,
      num_levels := level_of_new_node, value := value }

/-- The loop `for (i = ...; i < n; ++i) base[i].value = v`, with `count`
iterations left. -/
def set_values (base : Ptr) (v : Int) : Nat → Nat → Heap → Except Fault Heap
  | 0, _, h => .ok h
  | count + 1, i, h =>
    match set_value h ⟨base.entry, base.off + i⟩ v with
    | .error e => .error e
    | .ok h1 => set_values base v count (i + 1) h1

/-- The loop `while (prev_node->num_levels <= i) prev_node = prev_node->prev;`.
Stepping onto a NULL `prev` faults at the next test. -/
def walk_back (h : Heap) (i : Nat) : Nat → Ptr → Except Fault Ptr
  | 0, _ => .error .diverged
  | fuel + 1, prev_node =>
    match load h prev_node with
    | .error e => .error e
    | .ok n =>
      if n.num_levels ≤ i then
        match n.prev with
        | none => .error .null_deref
        | some q => walk_back h i fuel q
      else .ok prev_node

/-- Lines 142-148 of `skiplist_insert`, with `pi = &prev_node[i]` and
`ni = &new_node[i]`: thread `ni` between `pi` and the old `pi->next`. -/
def thread (h : Heap) (ni pi : Ptr) : Except Fault Heap :=
  match load h pi with
  | .error e => .error e
  | .ok pin =>
    match set_next h ni pin.next with
    | .error e => .error e
    | .ok h1 =>
      match set_prev h1 ni (some pi) with
      | .error e => .error e
      | .ok h2 =>
        match set_next h2 pi (some ni) with
        | .error e => .error e
        | .ok h3 =>
          match load h3 ni with
          | .error e => .error e
          | .ok nin =>
            match nin.next with
            | none => .ok h3
            | some q => set_prev h3 q (some ni)

/-- One iteration of the splice loop of `skiplist_insert` (lines 137-148);
returns the heap and the possibly moved `prev_node`. -/
def splice_level (h : Heap) (new_node prev_node : Ptr) (i : Nat) :
    Except Fault (Heap × Ptr) :=
  match load h prev_node with
  | .error e => .error e
  | .ok pn =>
    let moved : Except Fault Ptr :=
      if i = pn.num_levels then walk_back h i h.fuel prev_node else .ok prev_node
    match moved with
    | .error e => .error e
    | .ok prev_node =>
      match thread h ⟨new_node.entry, new_node.off + i⟩ ⟨prev_node.entry, prev_node.off + i⟩ with
      | .error e => .error e
      | .ok h1 => .ok (h1, prev_node)

/-- The splice loop `for (i = ...; i < level_of_new_node; ++i)`, with `count`
iterations left. -/
def splice_loop (new_node : Ptr) : Nat → Nat → Heap → Ptr → Except Fault Heap
  | 0, _, h, _ => .ok h
  | count + 1, i, h, prev_node =>
    match splice_level h new_node prev_node i with
    | .error e => .error e
    | .ok (h1, prev_node1) => splice_loop new_node count (i + 1) h1 prev_node1

/-- Lines 123-133 of `skiplist_insert`: when the new value is below the head's,
the head takes the new value and the new array takes the head's old value.
Returns the heap and the value to be searched. -/
def displace_head (h : Heap) (head new_node : Ptr) (value : Int) :
    Except Fault (Heap × Int) :=
  match load h head with
  | .error e => .error e
  | .ok hn =>
    if hn.value > value then
      match set_values head value hn.num_levels 0 h with
      | .error e => .error e
      | .ok h1 =>
        match load h1 new_node with
        | .error e => .error e
        | .ok nn =>
          match set_values new_node hn.value nn.num_levels 0 h1 with
          | .error e => .error e
          | .ok h2 => .ok (h2, hn.value)
    else .ok (h, value)

/-- The body of `skiplist_insert` after the level has been drawn;
`level_of_new_node` is the `uint8_t` local. -/
def insert_with_level (self : skiplist_t) (value : Int) (level_of_new_node : Nat)
    (h : Heap) : Except Fault (skiplist_t × Heap) :=
  let new_node : Ptr := ⟨h.length, 0⟩
  let h0 : Heap := h ++ [init_nodes level_of_new_node value]
  match self.head with
  | none => .ok ({ self with head := some new_node }, h0)
  | some head =>
    match displace_head h0 head new_node value with
    | .error e => .error e
    | .ok (h1, value1) =>
      match top_of h1 head with
      | .error e => .error e
      | .ok top =>
        match _skiplist_find_headnode_predecessor h1 top value1 with
        | .error e => .error e
        | .ok prev_node =>
          match splice_loop new_node level_of_new_node 0 h1 prev_node with
          | .error e => .error e
          | .ok h2 => .ok (self, h2)

/-- `skiplist_insert(self, value)`. The generated level is narrowed to
`uint8_t`. -/
def skiplist_insert (self : skiplist_t) (value : Int) (w : World) :
    Except Fault (skiplist_t × World) :=
  let r := generate_level_for_new_node self.max_num_levels self.p w.gen
  match insert_with_level self value (r.1 % 256) w.heap with
  | .error e => .error e
  | .ok (self1, h1) => .ok (self1, { heap := h1, gen := r.2 })

/-- A run of `skiplist_insert` calls, left to right. -/
def insert_all : List Int → skiplist_t → World → Except Fault (skiplist_t × World)
  | [], self, w => .ok (self, w)
  | v :: vs, self, w =>
    match skiplist_insert self v w with
    | .error e => .error e
    | .ok (self1, w1) => insert_all vs self1 w1

/-! ## Traversal -/

/-- The inner loop of `skiplist_print`: the values printed for one level,
with the monotonicity `assert` between neighbours. -/
def print_level (h : Heap) : Nat → Option Ptr → Except Fault (List Int)
  | 0, _ => .error .diverged
  | _ + 1, none => .ok []
  | fuel + 1, some p =>
    match load h p with
    | .error e => .error e
    | .ok n =>
      let checked : Except Fault Unit :=
        match n.next with
        | none => .ok ()
        | some q =>
          match load h q with
          | .error e => .error e
          | .ok nx => if n.value ≤ nx.value then .ok () else .error .assertion
      match checked with
      | .error e => .error e
      | .ok _ =>
        match print_level h fuel n.next with
        | .error e => .error e
        | .ok rest => .ok (n.value :: rest)

/-- The outer loop of `skiplist_print`, from `level` upward with `count` levels
left; the result lists the values printed per level. -/
def print_levels (h : Heap) (head : Ptr) : Nat → Nat → Except Fault (List (List Int))
  | 0, _ => .ok []
  | count + 1, level =>
    match print_level h h.fuel (some ⟨head.entry, head.off + level⟩) with
    | .error e => .error e
    | .ok row =>
      match print_levels h head count (level + 1) with
      | .error e => .error e
      | .ok rows => .ok (row :: rows)

/-- `skiplist_print(self)`, as the list of printed rows. -/
def skiplist_print (h : Heap) (self : skiplist_t) : Except Fault (List (List Int)) :=
  match self.head with
  | none => if self.max_num_levels = 0 then .ok [] else .error .null_deref
  | some head => print_levels h head self.max_num_levels 0

/-- The nodes met by following `next` from a pointer, as `free_skiplist` and
the print loops do. -/
def chain (h : Heap) : Nat → Option Ptr → Except Fault (List skiplist_node_t)
  | 0, _ => .error .diverged
  | _ + 1, none => .ok []
  | fuel + 1, some p =>
    match load h p with
    | .error e => .error e
    | .ok n =>
      match chain h fuel n.next with
      | .error e => .error e
      | .ok rest => .ok (n :: rest)

/-- Values read along the level-`k` chain from `head[k]`. -/
def level_values (h : Heap) (self : skiplist_t) (k : Nat) : Except Fault (List Int) :=
  match self.head with
  | none => .ok []
  | some head =>
    match chain h h.fuel (some ⟨head.entry, head.off + k⟩) with
    | .error e => .error e
    | .ok ns => .ok (ns.map (·.value))

/-- A fresh process: empty heap, `first` still set. -/
def fresh (rand : Nat → Nat) : World :=
  { heap := [], gen := { first := true, rand := rand } }

/-- The node `*self->head`. -/
def head_node (h : Heap) (self : skiplist_t) : Except Fault skiplist_node_t :=
  match self.head with
  | none => .error .null_deref
  | some p => load h p

/-- Apply an observation to the list and heap that a run produced. -/
def observe {α : Type} (r : Except Fault (skiplist_t × World))
    (f : Heap → skiplist_t → Except Fault α) : Except Fault α :=
  match r with
  | .error e => .error e
  | .ok (self, w) => f w.heap self

/-- The Entry that the predecessor search returns when started, as lookup and
insertion start it, from the top node of the head. -/
def find_from_head (h : Heap) (self : skiplist_t) (value : Int) : Except Fault Ptr :=
  match self.head with
  | none => .error .null_deref
  | some head =>
    match top_of h head with
    | .error e => .error e
    | .ok top => _skiplist_find_headnode_predecessor h top value

/-- A run of insertions in which the level of every new Entry is given instead
of drawn. -/
def insert_levels : List (Int × Nat) → skiplist_t → Heap → Except Fault (skiplist_t × Heap)
  | [], self, h => .ok (self, h)
  | (v, level) :: t, self, h =>
    match insert_with_level self v level h with
    | .error e => .error e
    | .ok (self1, h1) => insert_levels t self1 h1

/-- Apply an observation to the list and heap of a run with given levels. -/
def observe_heap {α : Type} (r : Except Fault (skiplist_t × Heap))
    (f : Heap → skiplist_t → Except Fault α) : Except Fault α :=
  match r with
  | .error e => .error e
  | .ok (self, h) => f h self

/-- The test that `p = 0.5` induces on a draw `k = rand() % 100`:
`(float)k / 100.f < 0.5f` holds exactly when `k < 50`. -/
def p_half : Nat → Bool := fun k => decide (k < 50)

/-- The pointers met by following `next` from a pointer. -/
def chain_ptrs (h : Heap) : Nat → Option Ptr → Except Fault (List Ptr)
  | 0, _ => .error .diverged
  | _ + 1, none => .ok []
  | fuel + 1, some p =>
    match load h p with
    | .error e => .error e
    | .ok n =>
      match chain_ptrs h fuel n.next with
      | .error e => .error e
      | .ok rest => .ok (p :: rest)

/-- The nodes of the level-`k` chain, from `head[k]` along `next`. -/
def level_ptrs (h : Heap) (self : skiplist_t) (k : Nat) : Except Fault (List Ptr) :=
  match self.head with
  | none => .ok []
  | some head => chain_ptrs h h.fuel (some ⟨head.entry, head.off + k⟩)

/-- Number of consecutive successful Bernoulli trials (`draw / 100 < p`) at the
front of the random stream, counted among its first `n` draws. -/
def leading_successes (p : Nat → Bool) : Nat → (Nat → Nat) → Nat
  | 0, _ => 0
  | n + 1, rand =>
    if p (rand 0 % 100) then 1 + leading_successes p n (fun i => rand (i + 1)) else 0

/-- One call of the public interface by a program that holds several lists; the
lists are numbered in the order of their creation. -/
inductive Call where
  | new_skiplist (num_levels : Nat) (p : Nat → Bool)
  | skiplist_insert (list : Nat) (value : Int)

/-- The argument `num_levels` of `new_skiplist` is a `uint8_t` and at least 1. -/
def Call.in_range : Call → Bool
  | .new_skiplist num_levels _ => decide (1 ≤ num_levels) && decide (num_levels < 256)
  | .skiplist_insert _ _ => true

/-- A program state: the handles of the lists created so far and the process
state (heap, level generator) that all of them share. -/
structure Process where
  lists : List skiplist_t
  world : World

/-- The effect of one call. `new_skiplist` adds a handle; `skiplist_insert` runs
on the handle it names and on the shared process state. An insertion that names
a list not yet created is not a call a program can make, and is skipped. -/
def call (P : Process) : Call → Except Fault Process
  | .new_skiplist num_levels p => .ok { P with lists := P.lists ++ [new_skiplist num_levels p] }
  | .skiplist_insert list value =>
    match P.lists[list]? with
    | none => .ok P
    | some self =>
      match skiplist_insert self value P.world with
      | .error e => .error e
      | .ok (self1, w1) => .ok { lists := P.lists.set list self1, world := w1 }

/-- A program: a sequence of calls, run left to right until one faults. -/
def calls : List Call → Process → Except Fault Process
  | [], P => .ok P
  | c :: cs, P =>
    match call P c with
    | .error e => .error e
    | .ok P1 => calls cs P1

/-! ## Abstraction used by the proofs -/

/-- One stored Entry as the proofs see it: its allocation, its number of
levels and the value all of its nodes carry. -/
structure AEntry where
  id : Nat
  levels : Nat
  value : Int
deriving DecidableEq, Repr

/-- The node that Entry `a` must hold at level `k` when `prev` precedes it and
`rest` follows it on the level-`k` chain. -/
def node_at (k : Nat) (prev : Option Ptr) (a : AEntry) (rest : List AEntry) :
    skiplist_node_t :=
  { next := rest.head?.map fun b => ⟨b.id, k⟩, prev := prev, level := k,
    num_levels := a.levels, value := a.value }

/-- The heap threads the Entries of the list, in order, as a doubly linked
level-`k` chain whose first node has `prev` as its `prev`. -/
def Linked (h : Heap) (k : Nat) : Option Ptr → List AEntry → Prop
  | _, [] => True
  | prev, a :: rest =>
    h.get ⟨a.id, k⟩ = some (node_at k prev a rest) ∧ Linked h k (some ⟨a.id, k⟩) rest

/-- The `prev` pointer of the node that follows the chain segment `xs`, whose
own first node has `p` as its `prev`. -/
def prev_of (k : Nat) (p : Option Ptr) (xs : List AEntry) : Option Ptr :=
  match xs.getLast? with
  | none => p
  | some b => some ⟨b.id, k⟩

/-- The Entries that take part in level `k`. -/
def on_level (k : Nat) (es : List AEntry) : List AEntry :=
  es.filter fun a => decide (k < a.levels)

/-- The heap holds exactly the skip list `es` (in level-0 order) for the handle
`sl`: the head is the first Entry and has `max_num_levels` levels, every
Entry has between one and `max_num_levels` levels, and the level-`k` chain
threads the Entries with more than `k` levels, in the same order. -/
structure Represents (h : Heap) (sl : skiplist_t) (es : List AEntry) : Prop where
  head_eq : sl.head = es.head?.map fun a => ⟨a.id, 0⟩
  nonempty : es ≠ []
  head_levels : ∀ a, es.head? = some a → a.levels = sl.max_num_levels
  nodup : (es.map (·.id)).Nodup
  levels_pos : ∀ a ∈ es, 1 ≤ a.levels
  levels_le : ∀ a ∈ es, a.levels ≤ sl.max_num_levels
  linked : ∀ k, Linked h k none (on_level k es)
  size_le : es.length + sl.max_num_levels ≤ h.size + 1

/-- What holds of a list handle and process state after the values `vs` have
been inserted (latest first) into a list made with `M` levels: the heap
represents `es`, whose values are those inserted; the head carries the least of
them; and, from two levels on, the level-0 order is non-decreasing. -/
structure Good (M : Nat) (vs : List Int) (sl : skiplist_t) (w : World)
    (es : List AEntry) : Prop where
  repr : Represents w.heap sl es
  max_eq : sl.max_num_levels = M
  not_first : w.gen.first = false
  values : (es.map (·.value)).Perm vs
  head_min : ∀ a0, es.head? = some a0 → ∀ a ∈ es, a0.value ≤ a.value
  sorted : 2 ≤ M → es.Pairwise (fun a b => a.value ≤ b.value)

/-- State of the splice loop of `skiplist_insert` at level `i`, while the new
Entry `nw` is being threaded behind `P` into the list `A ++ P :: C`: the levels
below `i` already contain `nw`, the others do not yet; the nodes of `nw` from
level `i` upward are allocated and carry its value; and `prev_node` is the
level-0 node of `Q`, which is `P` or an earlier Entry, with only Entries of at
most `i` levels between `Q` and `P`. -/
structure Splicing (h : Heap) (A : List AEntry) (P nw : AEntry) (C : List AEntry)
    (i : Nat) (Q : AEntry) : Prop where
  linked : ∀ k, Linked h k none
    (if k < i then on_level k (A ++ P :: nw :: C) else on_level k (A ++ P :: C))
  unlinked : ∀ k, i ≤ k → k < nw.levels →
    ∃ n, h.get ⟨nw.id, k⟩ = some n ∧ n.level = k ∧ n.num_levels = nw.levels ∧
      n.value = nw.value
  cursor : ∃ A1 B, A ++ [P] = A1 ++ Q :: B ∧ (∀ b ∈ B, b.levels ≤ i) ∧ i ≤ Q.levels
  size_le : (A ++ P :: C).length ≤ h.size + 1

/-- What holds of one list of a program: its `max_num_levels` is between 1 and
255, and either the list is still empty, or the heap holds the skip list `es`
around a head of some number `L0` of levels, which bounds the levels of every
Entry (`L0` is `max_num_levels` when the head was made by the first insertion of
the process, and can be smaller otherwise). -/
def Settled (h : Heap) (sl : skiplist_t) (es : List AEntry) : Prop :=
  1 ≤ sl.max_num_levels ∧ sl.max_num_levels < 256 ∧
    ((sl.head = none ∧ es = []) ∨ ∃ L0, Represents h { sl with max_num_levels := L0 } es)

/-- What holds of a program state: list number `k` is settled with the Entries
`ess k`; no allocation belongs to two lists; and every Entry is allocated. -/
structure Coherent (P : Process) (ess : Nat → List AEntry) : Prop where
  settled : ∀ k sl, P.lists[k]? = some sl → Settled P.world.heap sl (ess k)
  apart : ∀ j k, j ≠ k → ∀ a ∈ ess j, ∀ b ∈ ess k, a.id ≠ b.id
  allocated : ∀ k, ∀ a ∈ ess k, a.id < P.world.heap.length

/-! ## Heap lemmas -/

theorem get_put (h : Heap) (p q : Ptr) (n m : skiplist_node_t) (hp : h.get p = some m) :
    (h.put p n).get q = if q = p then some n else h.get q := by
  unfold Heap.get Heap.put at *
  cases he : h[p.entry]? with
  | none => simp [he] at hp
  | some arr =>
    simp only [he] at hp ⊢
    have h1 : p.entry < h.length := (List.getElem?_eq_some_iff.1 he).1
    by_cases hq : q = p
    · subst hq
      have h2 : q.off < arr.length := (List.getElem?_eq_some_iff.1 hp).1
      simp [List.getElem?_set, h1, h2]
    · simp only [hq, if_false]
      by_cases hent : q.entry = p.entry
      · have hoff : p.off ≠ q.off := by
          intro hc; apply hq; cases p; cases q; simp_all
        rw [hent]
        simp [List.getElem?_set, h1, he, hoff]
      · have : p.entry ≠ q.entry := fun hc => hent hc.symm
        simp [List.getElem?_set, this]

theorem sum_set_same (l : List Nat) (i x : Nat) (hx : l[i]? = some x) :
    (l.set i x).sum = l.sum := by
  induction l generalizing i with
  | nil => simp
  | cons a t ih =>
    cases i with
    | zero => simp at hx; simp [hx]
    | succ j => simp at hx; simp [ih j hx]

theorem size_put (h : Heap) (p : Ptr) (n : skiplist_node_t) : (h.put p n).size = h.size := by
  unfold Heap.put Heap.size
  cases he : h[p.entry]? with
  | none => rfl
  | some arr =>
    simp only [List.map_set, List.length_set]
    apply sum_set_same
    simp [he]

theorem length_put (h : Heap) (p : Ptr) (n : skiplist_node_t) :
    (h.put p n).length = h.length := by
  unfold Heap.put
  cases h[p.entry]? <;> simp

theorem load_eq_ok {h : Heap} {p : Ptr} {n : skiplist_node_t} (hp : h.get p = some n) :
    load h p = .ok n := by
  simp [load, hp]

theorem store_eq_ok {h : Heap} {p : Ptr} {m : skiplist_node_t} (n : skiplist_node_t)
    (hp : h.get p = some m) : store h p n = .ok (h.put p n) := by
  simp [store, hp]

theorem set_next_eq_ok {h : Heap} {p : Ptr} {m : skiplist_node_t} (q : Option Ptr)
    (hp : h.get p = some m) : set_next h p q = .ok (h.put p { m with next := q }) := by
  simp [set_next, load, store, hp]

theorem set_prev_eq_ok {h : Heap} {p : Ptr} {m : skiplist_node_t} (q : Option Ptr)
    (hp : h.get p = some m) : set_prev h p q = .ok (h.put p { m with prev := q }) := by
  simp [set_prev, load, store, hp]

theorem set_value_eq_ok {h : Heap} {p : Ptr} {m : skiplist_node_t} (v : Int)
    (hp : h.get p = some m) : set_value h p v = .ok (h.put p { m with value := v }) := by
  simp [set_value, load, store, hp]

theorem get_append_old (h : Heap) (arr : List skiplist_node_t) (p : Ptr)
    (hp : p.entry < h.length) : (h ++ [arr]).get p = h.get p := by
  simp [Heap.get, List.getElem?_append_left hp]

theorem get_append_new (h : Heap) (arr : List skiplist_node_t) (k : Nat) :
    (h ++ [arr]).get ⟨h.length, k⟩ = arr[k]? := by
  simp [Heap.get]

theorem get_lt_length {h : Heap} {p : Ptr} {n : skiplist_node_t} (hp : h.get p = some n) :
    p.entry < h.length := by
  unfold Heap.get at hp
  cases he : h[p.entry]? with
  | none => simp [he] at hp
  | some arr => exact (List.getElem?_eq_some_iff.1 he).1

theorem size_append (h : Heap) (arr : List skiplist_node_t) :
    Heap.size (h ++ [arr]) = h.size + arr.length := by
  simp [Heap.size]

theorem init_nodes_length (L : Nat) (v : Int) : (init_nodes L v).length = L := by
  simp [init_nodes]

theorem init_nodes_get (L : Nat) (v : Int) (k : Nat) (hk : k < L) :
    (init_nodes L v)[k]? =
      some { next := none, prev := none, level := k, num_levels := L, value := v } := by
  simp [init_nodes, List.getElem?_map, List.getElem?_range hk]

/-! ## Level generator -/

theorem level_loop_bounds (max_num_levels : Nat) (p : Nat → Bool) (fuel level : Nat)
    (rand : Nat → Nat) (h1 : 1 ≤ level) (h2 : level ≤ max_num_levels) :
    1 ≤ (level_loop max_num_levels p fuel level rand).1 ∧
      (level_loop max_num_levels p fuel level rand).1 ≤ max_num_levels := by
  induction fuel generalizing level rand with
  | zero => exact ⟨h1, h2⟩
  | succ f ih =>
    unfold level_loop
    split
    · rename_i hc
      simp only [Bool.and_eq_true, decide_eq_true_eq] at hc
      exact ih (level + 1) _ (by omega) (by omega)
    · exact ⟨h1, h2⟩

/-- The step bound of `level_loop` never cuts the loop short: any two positive
bounds that exceed the distance to `max_num_levels` give the same result. -/
theorem level_loop_fuel (max_num_levels : Nat) (p : Nat → Bool) (f1 f2 level : Nat)
    (rand : Nat → Nat) (h1 : max_num_levels < level + f1) (h2 : max_num_levels < level + f2)
    (p1 : 1 ≤ f1) (p2 : 1 ≤ f2) :
    level_loop max_num_levels p f1 level rand = level_loop max_num_levels p f2 level rand := by
  induction f1 generalizing f2 level rand with
  | zero => omega
  | succ f ih =>
    cases f2 with
    | zero => omega
    | succ g =>
      unfold level_loop
      by_cases hc : (p (rand 0 % 100) && decide (level < max_num_levels)) = true
      · simp only [hc, if_true]
        simp only [Bool.and_eq_true, decide_eq_true_eq] at hc
        exact ih g (level + 1) _ (by omega) (by omega) (by omega) (by omega)
      · simp only [hc]
        rfl

theorem generate_level_bounds (max_num_levels : Nat) (p : Nat → Bool) (g : gen_state)
    (hmax : 1 ≤ max_num_levels) :
    1 ≤ (generate_level_for_new_node max_num_levels p g).1 ∧
      (generate_level_for_new_node max_num_levels p g).1 ≤ max_num_levels := by
  unfold generate_level_for_new_node
  split
  · exact ⟨hmax, le_refl _⟩
  · exact level_loop_bounds max_num_levels p _ 1 g.rand (le_refl 1) hmax

/-- C8: for `max_num_levels >= 1`, whatever `p`, the random stream and the
first-call flag are, `generate_level_for_new_node` returns a level count between
1 and `max_num_levels`. -/
theorem generate_level_in_range (max_num_levels : Nat) (p : Nat → Bool) (g : gen_state)
    (hmax : 1 ≤ max_num_levels) :
    1 ≤ (generate_level_for_new_node max_num_levels p g).1 ∧
      (generate_level_for_new_node max_num_levels p g).1 ≤ max_num_levels :=
  generate_level_bounds max_num_levels p g hmax

theorem generate_level_in_range_witness :
    1 ≤ 4 ∧ (1 ≤ (generate_level_for_new_node 4 (fun k => decide (k < 50))
        { first := false, rand := fun n => 37 * n }).1 ∧
      (generate_level_for_new_node 4 (fun k => decide (k < 50))
        { first := false, rand := fun n => 37 * n }).1 ≤ 4) :=
  ⟨by decide, generate_level_in_range 4 _ _ (by decide)⟩

/-! ## Chains -/

theorem prev_of_nil (k : Nat) (p : Option Ptr) : prev_of k p [] = p := rfl

theorem prev_of_cons (k : Nat) (p : Option Ptr) (x : AEntry) (xs : List AEntry) :
    prev_of k p (x :: xs) = prev_of k (some ⟨x.id, k⟩) xs := by
  cases xs with
  | nil => rfl
  | cons y ys =>
    have h1 : (y :: ys).getLast? = some ((y :: ys).getLast (by simp)) :=
      List.getLast?_eq_getLast _ _
    simp only [prev_of, List.getLast?_cons_cons, h1]

theorem prev_of_append_singleton (k : Nat) (p : Option Ptr) (xs : List AEntry) (b : AEntry) :
    prev_of k p (xs ++ [b]) = some ⟨b.id, k⟩ := by
  simp [prev_of]

theorem Linked_frame {h h1 : Heap} {k : Nat} {p : Option Ptr} {l : List AEntry}
    (hf : ∀ a ∈ l, h1.get ⟨a.id, k⟩ = h.get ⟨a.id, k⟩) (hl : Linked h k p l) :
    Linked h1 k p l := by
  induction l generalizing p with
  | nil => trivial
  | cons a t ih =>
    refine ⟨?_, ih (fun b hb => hf b (List.mem_cons_of_mem _ hb)) hl.2⟩
    rw [hf a (List.mem_cons_self _ _)]
    exact hl.1

theorem Linked_split {h : Heap} {k : Nat} {p : Option Ptr} {xs ys : List AEntry} {a : AEntry}
    (hl : Linked h k p (xs ++ a :: ys)) :
    h.get ⟨a.id, k⟩ = some (node_at k (prev_of k p xs) a ys) := by
  induction xs generalizing p with
  | nil => exact hl.1
  | cons x t ih =>
    rw [prev_of_cons]
    exact ih hl.2

theorem Linked_tail {h : Heap} {k : Nat} {p : Option Ptr} {xs ys : List AEntry}
    (hl : Linked h k p (xs ++ ys)) : Linked h k (prev_of k p xs) ys := by
  induction xs generalizing p with
  | nil => exact hl
  | cons x t ih =>
    rw [prev_of_cons]
    exact ih hl.2

/-- Threading a new Entry `nw` behind `q` on a level-`k` chain: it is enough
that the three nodes around the splice hold what they should and that no other
node of the chain changed. -/
theorem Linked_splice {h h1 : Heap} {k : Nat} {p : Option Ptr} {xs ys : List AEntry}
    {q nw : AEntry} (hl : Linked h k p (xs ++ q :: ys))
    (hq : h1.get ⟨q.id, k⟩ = some (node_at k (prev_of k p xs) q (nw :: ys)))
    (hn : h1.get ⟨nw.id, k⟩ = some (node_at k (some ⟨q.id, k⟩) nw ys))
    (hy : ∀ b t, ys = b :: t → h1.get ⟨b.id, k⟩ = some (node_at k (some ⟨nw.id, k⟩) b t))
    (hx : ∀ a ∈ xs, h1.get ⟨a.id, k⟩ = h.get ⟨a.id, k⟩)
    (ht : ∀ a ∈ ys.tail, h1.get ⟨a.id, k⟩ = h.get ⟨a.id, k⟩) :
    Linked h1 k p (xs ++ q :: nw :: ys) := by
  induction xs generalizing p with
  | nil =>
    refine ⟨hq, hn, ?_⟩
    cases ys with
    | nil => trivial
    | cons b t =>
      refine ⟨hy b t rfl, ?_⟩
      have h2 : Linked h k (some ⟨b.id, k⟩) t := hl.2.2
      exact Linked_frame ht h2
  | cons x t ih =>
    have hx1 := hx x (List.mem_cons_self _ _)
    refine ⟨?_, ih hl.2 ?_ (fun a ha => hx a (List.mem_cons_of_mem _ ha))⟩
    · rw [hx1, hl.1]
      cases t <;> rfl
    · rw [hq, prev_of_cons]

theorem on_level_append (k : Nat) (xs ys : List AEntry) :
    on_level k (xs ++ ys) = on_level k xs ++ on_level k ys := by
  simp [on_level]

theorem on_level_cons_pos (k : Nat) (a : AEntry) (l : List AEntry) (ha : k < a.levels) :
    on_level k (a :: l) = a :: on_level k l := by
  simp [on_level, ha]

theorem on_level_cons_neg (k : Nat) (a : AEntry) (l : List AEntry) (ha : ¬ k < a.levels) :
    on_level k (a :: l) = on_level k l := by
  simp [on_level, ha]

theorem on_level_zero (es : List AEntry) (hp : ∀ a ∈ es, 1 ≤ a.levels) : on_level 0 es = es := by
  unfold on_level
  rw [List.filter_eq_self]
  intro a ha
  have := hp a ha
  simp
  omega

theorem on_level_eq_nil {k : Nat} {l : List AEntry} (hl : ∀ a ∈ l, a.levels ≤ k) :
    on_level k l = [] := by
  unfold on_level
  rw [List.filter_eq_nil_iff]
  intro a ha
  have := hl a ha
  simp
  omega

theorem on_level_eq_cons {k : Nat} {l t : List AEntry} {c : AEntry}
    (hl : on_level k l = c :: t) :
    ∃ l1 l2, l = l1 ++ c :: l2 ∧ (∀ x ∈ l1, x.levels ≤ k) ∧ k < c.levels ∧ on_level k l2 = t := by
  unfold on_level at hl
  rcases List.filter_eq_cons_iff.1 hl with ⟨l1, l2, h1, h2, h3, h4⟩
  refine ⟨l1, l2, h1, ?_, by simpa using h3, h4⟩
  intro x hx
  have := h2 x hx
  simp at this
  exact this

/-- The node of Entry `a` at one of its levels, read off the chain. -/
theorem node_of_linked {h : Heap} {k : Nat} {es A C : List AEntry} {a : AEntry}
    (hl : Linked h k none (on_level k es)) (hes : es = A ++ a :: C) (hk : k < a.levels) :
    h.get ⟨a.id, k⟩ = some (node_at k (prev_of k none (on_level k A)) a (on_level k C)) := by
  subst hes
  rw [on_level_append, on_level_cons_pos k a C hk] at hl
  exact Linked_split hl

/-! ## The predecessor search on a well-formed heap -/

theorem advance_spec {h : Heap} {v : Int} {k : Nat} {es : List AEntry}
    (hl : Linked h k none (on_level k es)) :
    ∀ (fuel : Nat) (A : List AEntry) (a : AEntry) (C : List AEntry),
      es = A ++ a :: C → k < a.levels → C.length < fuel →
      ∃ A1 b C1, es = A1 ++ b :: C1 ∧ k < b.levels ∧
        advance h v fuel ⟨a.id, k⟩ = .ok ⟨b.id, k⟩ ∧
        C1.length ≤ C.length ∧ (a.value ≤ v → b.value ≤ v) ∧
        (∀ c, (on_level k C1).head? = some c → v < c.value) ∧
        ((∃ c, (on_level k C).head? = some c ∧ c.value ≤ v) → C1.length < C.length) := by
  intro fuel
  induction fuel with
  | zero => intro A a C _ _ hf; omega
  | succ f ih =>
    intro A a C hes hk hf
    have hn := node_of_linked hl hes hk
    rw [advance, load_eq_ok hn]
    cases hC : on_level k C with
    | nil =>
      refine ⟨A, a, C, hes, hk, ?_, le_refl _, id, ?_, ?_⟩
      · simp [node_at]
      · simp [hC]
      · simp [hC]
    | cons c t =>
      obtain ⟨C1, C2, hC12, _, hkc, _⟩ := on_level_eq_cons hC
      have hes2 : es = (A ++ a :: C1) ++ c :: C2 := by simp [hes, hC12]
      have hnc := node_of_linked hl hes2 hkc
      by_cases hv : c.value ≤ v
      · obtain ⟨A1, b, C3, h1, h2, h3, h4, h5, h6, _⟩ :=
          ih (A ++ a :: C1) c C2 hes2 hkc (by simp [hC12] at hf; omega)
        refine ⟨A1, b, C3, h1, h2, ?_, ?_, fun _ => h5 hv, h6, fun _ => ?_⟩
        · simp [node_at, load_eq_ok hnc, hv, h3]
        · simp [hC12]; omega
        · simp [hC12]; omega
      · refine ⟨A, a, C, hes, hk, ?_, le_refl _, id, ?_, ?_⟩
        · simp [node_at, load_eq_ok hnc, hv]
        · intro c1 hc1
          simp [hC] at hc1
          subst hc1
          omega
        · rintro ⟨c1, hc1, hc2⟩
          simp [hC] at hc1
          subst hc1
          exact absurd hc2 hv

theorem descend_spec {h : Heap} {v : Int} {es A C : List AEntry} {a : AEntry}
    (hl : ∀ k, Linked h k none (on_level k es)) (hes : es = A ++ a :: C) :
    ∀ (fuel k : Nat), k < a.levels → k < fuel →
      ∃ k1, k1 ≤ k ∧ descend h v fuel ⟨a.id, k⟩ = .ok ⟨a.id, k1⟩ ∧
        (0 < k1 → ∃ c, (on_level k1 C).head? = some c ∧ c.value ≤ v) := by
  intro fuel
  induction fuel with
  | zero => intro k _ hf; omega
  | succ f ih =>
    intro k hk hf
    have hn := node_of_linked (hl k) hes hk
    rw [descend, load_eq_ok hn]
    cases hC : on_level k C with
    | nil =>
      by_cases hk0 : 0 < k
      · obtain ⟨k1, h1, h2, h3⟩ := ih (k - 1) (by omega) (by omega)
        refine ⟨k1, by omega, ?_, h3⟩
        have : k ≠ 0 := by omega
        simp [node_at, hk0, this, h2]
      · refine ⟨k, le_refl _, ?_, fun hc => absurd hc hk0⟩
        simp [node_at, hk0]
    | cons c t =>
      obtain ⟨C1, C2, hC12, _, hkc, _⟩ := on_level_eq_cons hC
      have hes2 : es = (A ++ a :: C1) ++ c :: C2 := by simp [hes, hC12]
      have hnc := node_of_linked (hl k) hes2 hkc
      by_cases hb : v < c.value ∧ 0 < k
      · obtain ⟨k1, h1, h2, h3⟩ := ih (k - 1) (by omega) (by omega)
        refine ⟨k1, by omega, ?_, h3⟩
        have : k ≠ 0 := by omega
        simp [node_at, load_eq_ok hnc, hb.1, hb.2, this, h2]
      · refine ⟨k, le_refl _, ?_, fun hc => ⟨c, by simp [hC], ?_⟩⟩
        · by_cases hv : v < c.value
          · have : ¬ 0 < k := fun hc => hb ⟨hv, hc⟩
            simp [node_at, load_eq_ok hnc, hv, this]
          · simp [node_at, load_eq_ok hnc, hv]
        · by_contra hcv
          exact hb ⟨by omega, hc⟩

theorem search_loop_spec {h : Heap} {v : Int} {es : List AEntry} {M : Nat}
    (hl : ∀ k, Linked h k none (on_level k es)) (hpos : ∀ a ∈ es, 1 ≤ a.levels)
    (hle : ∀ a ∈ es, a.levels ≤ M) (hsz : es.length + M ≤ h.size + 1) :
    ∀ (fuel : Nat) (A : List AEntry) (a : AEntry) (C : List AEntry) (k : Nat),
      es = A ++ a :: C → k < a.levels → a.value ≤ v → k + C.length < fuel →
      ∃ A1 b C1, es = A1 ++ b :: C1 ∧ search_loop h v fuel ⟨a.id, k⟩ = .ok ⟨b.id, 0⟩ ∧
        b.value ≤ v ∧ (0 < k → ∀ c, C1.head? = some c → v < c.value) := by
  intro fuel
  induction fuel with
  | zero => intro A a C k _ _ _ hf; omega
  | succ f ih =>
    intro A a C k hes hk hv hf
    have hn := node_of_linked (hl k) hes hk
    have hlen : es.length = A.length + C.length + 1 := by simp [hes]; omega
    have haM : a.levels ≤ M := hle a (by simp [hes])
    rw [search_loop, load_eq_ok hn]
    by_cases hk0 : 0 < k
    · obtain ⟨k1, d1, d2, d3⟩ := descend_spec (v := v) hl hes h.fuel k hk (by unfold Heap.fuel; omega)
      obtain ⟨A1, b, C1, a1, a2, a3, a4, a5, a6, a7⟩ :=
        advance_spec (v := v) (hl k1) h.fuel A a C hes (by omega) (by unfold Heap.fuel; omega)
      by_cases hk1 : 0 < k1
      · have hlt : C1.length < C.length := a7 (d3 hk1)
        obtain ⟨A2, b2, C2, s1, s2, s3, s4⟩ := ih A1 b C1 k1 a1 a2 (a5 hv) (by omega)
        refine ⟨A2, b2, C2, s1, ?_, s3, fun _ => s4 hk1⟩
        simp [node_at, hk0, d2, a3, s2]
      · have hk10 : k1 = 0 := by omega
        subst hk10
        have hnb := node_of_linked (hl 0) a1 a2
        cases f with
        | zero => omega
        | succ g =>
          refine ⟨A1, b, C1, a1, ?_, a5 hv, fun _ c hc => a6 c ?_⟩
          · simp [node_at, hk0, d2, a3]
            rw [search_loop, load_eq_ok hnb]
            simp [node_at]
          · have hC1 : on_level 0 C1 = C1 :=
              on_level_zero C1 (fun x hx => hpos x (by simp [a1, hx]))
            rw [hC1]; exact hc
    · have hk00 : k = 0 := by omega
      subst hk00
      refine ⟨A, a, C, hes, ?_, hv, fun hc => absurd hc hk0⟩
      simp [node_at]

theorem top_of_head {h : Heap} {es rest : List AEntry} {a0 : AEntry}
    (hl : Linked h 0 none (on_level 0 es)) (hes : es = a0 :: rest) (hpos : 1 ≤ a0.levels) :
    top_of h ⟨a0.id, 0⟩ = .ok ⟨a0.id, a0.levels - 1⟩ := by
  have hn := node_of_linked (A := []) hl hes hpos
  have : a0.levels ≠ 0 := by omega
  simp [top_of, load_eq_ok hn, node_at, this]

theorem find_pred_spec {h : Heap} {v : Int} {es rest : List AEntry} {a0 : AEntry} {M : Nat}
    (hl : ∀ k, Linked h k none (on_level k es)) (hpos : ∀ a ∈ es, 1 ≤ a.levels)
    (hle : ∀ a ∈ es, a.levels ≤ M) (hsz : es.length + M ≤ h.size + 1)
    (hes : es = a0 :: rest) (hv : a0.value ≤ v) :
    ∃ A b C, es = A ++ b :: C ∧
      _skiplist_find_headnode_predecessor h ⟨a0.id, a0.levels - 1⟩ v = .ok ⟨b.id, 0⟩ ∧
      b.value ≤ v ∧ (2 ≤ a0.levels → ∀ c, C.head? = some c → v < c.value) := by
  have h0 : 1 ≤ a0.levels := hpos a0 (by simp [hes])
  have hM : a0.levels ≤ M := hle a0 (by simp [hes])
  have hn := node_of_linked (A := []) (hl (a0.levels - 1)) hes (by omega)
  obtain ⟨A, b, C, s1, s2, s3, s4⟩ :=
    search_loop_spec (v := v) hl hpos hle hsz h.fuel [] a0 rest (a0.levels - 1) hes (by omega) hv
      (by unfold Heap.fuel; simp [hes] at hsz; omega)
  have hb : 1 ≤ b.levels := hpos b (by simp [s1])
  have hnb := node_of_linked (hl 0) s1 hb
  refine ⟨A, b, C, s1, ?_, s3, fun h2 => s4 (by omega)⟩
  simp [_skiplist_find_headnode_predecessor, load_eq_ok hn, node_at, hv, s2, skiplist_head_of,
    load_eq_ok hnb]

theorem walk_back_spec {h : Heap} {i : Nat} :
    ∀ (fuel : Nat) (A1 : List AEntry) (Q : AEntry) (R : List AEntry),
      Linked h 0 none (A1 ++ Q :: R) → (∃ x ∈ A1 ++ [Q], i < x.levels) → A1.length < fuel →
      ∃ A2 Q2 B, A1 ++ [Q] = A2 ++ Q2 :: B ∧ (∀ b ∈ B, b.levels ≤ i) ∧ i < Q2.levels ∧
        walk_back h i fuel ⟨Q.id, 0⟩ = .ok ⟨Q2.id, 0⟩ := by
  intro fuel
  induction fuel with
  | zero => intro A1 Q R _ _ hf; omega
  | succ f ih =>
    intro A1 Q R hl hx hf
    have hn := Linked_split hl
    rw [walk_back, load_eq_ok hn]
    by_cases hq : i < Q.levels
    · refine ⟨A1, Q, [], rfl, by simp, hq, ?_⟩
      have : ¬ Q.levels ≤ i := by omega
      simp [node_at, this]
    · have hq1 : Q.levels ≤ i := by omega
      rcases List.eq_nil_or_concat A1 with hA | ⟨A0, q0, hA⟩
      · subst hA
        obtain ⟨x, hx1, hx2⟩ := hx
        simp at hx1
        subst hx1
        omega
      · rw [List.concat_eq_append] at hA
        subst hA
        have hl2 : Linked h 0 none (A0 ++ q0 :: (Q :: R)) := by simpa using hl
        have hx2 : ∃ x ∈ A0 ++ [q0], i < x.levels := by
          obtain ⟨x, hx1, hx2⟩ := hx
          refine ⟨x, ?_, hx2⟩
          simp at hx1 ⊢
          rcases hx1 with hx1 | hx1 | hx1
          · exact Or.inl hx1
          · exact Or.inr hx1
          · subst hx1; omega
        obtain ⟨A2, Q2, B, w1, w2, w3, w4⟩ := ih A0 q0 (Q :: R) hl2 hx2 (by simp at hf; omega)
        refine ⟨A2, Q2, B ++ [Q], by simp [w1], ?_, w3, ?_⟩
        · intro b hb
          simp at hb
          rcases hb with hb | hb
          · exact w2 b hb
          · subst hb; exact hq1
        · simp [node_at, hq1, prev_of_append_singleton, w4]

/-! ## The splice loop -/

theorem set_next_spec {h : Heap} {p : Ptr} {m : skiplist_node_t} (q : Option Ptr)
    (hp : h.get p = some m) :
    ∃ h1, set_next h p q = .ok h1 ∧ h1.size = h.size ∧
      ∀ x, h1.get x = if x = p then some { m with next := q } else h.get x :=
  ⟨_, set_next_eq_ok q hp, size_put _ _ _, fun x => get_put h p x _ m hp⟩

theorem set_prev_spec {h : Heap} {p : Ptr} {m : skiplist_node_t} (q : Option Ptr)
    (hp : h.get p = some m) :
    ∃ h1, set_prev h p q = .ok h1 ∧ h1.size = h.size ∧
      ∀ x, h1.get x = if x = p then some { m with prev := q } else h.get x :=
  ⟨_, set_prev_eq_ok q hp, size_put _ _ _, fun x => get_put h p x _ m hp⟩

theorem set_value_spec {h : Heap} {p : Ptr} {m : skiplist_node_t} (v : Int)
    (hp : h.get p = some m) :
    ∃ h1, set_value h p v = .ok h1 ∧ h1.size = h.size ∧
      ∀ x, h1.get x = if x = p then some { m with value := v } else h.get x :=
  ⟨_, set_value_eq_ok v hp, size_put _ _ _, fun x => get_put h p x _ m hp⟩

theorem thread_spec {h : Heap} {ni pi : Ptr} {pin nn : skiplist_node_t}
    (hpi : h.get pi = some pin) (hni : h.get ni = some nn) (hne : pi ≠ ni)
    (hq : ∀ q, pin.next = some q → q ≠ ni ∧ q ≠ pi ∧ ∃ m, h.get q = some m) :
    ∃ h1, thread h ni pi = .ok h1 ∧ h1.size = h.size ∧
      h1.get ni = some { nn with next := pin.next, prev := some pi } ∧
      h1.get pi = some { pin with next := some ni } ∧
      (∀ q m, pin.next = some q → h.get q = some m →
        h1.get q = some { m with prev := some ni }) ∧
      (∀ x, x ≠ ni → x ≠ pi → pin.next ≠ some x → h1.get x = h.get x) := by
  obtain ⟨h1, e1, z1, g1⟩ := set_next_spec pin.next hni
  have hni1 := g1 ni
  rw [if_pos rfl] at hni1
  obtain ⟨h2, e2, z2, g2⟩ := set_prev_spec (some pi) hni1
  have hpi2 : h2.get pi = some pin := by rw [g2 pi, if_neg hne, g1 pi, if_neg hne, hpi]
  obtain ⟨h3, e3, z3, g3⟩ := set_next_spec (some ni) hpi2
  have hni3 : h3.get ni = some { nn with next := pin.next, prev := some pi } := by
    rw [g3 ni, if_neg (Ne.symm hne), g2 ni, if_pos rfl]
  unfold thread
  simp only [load_eq_ok hpi, e1, e2, e3, load_eq_ok hni3]
  cases hnx : pin.next with
  | none =>
    refine ⟨h3, rfl, by omega, ?_, ?_, ?_, ?_⟩
    · rw [hni3, hnx]
    · rw [g3 pi, if_pos rfl]
    · intro q m hc; simp at hc
    · intro x hx1 hx2 _
      rw [g3 x, if_neg hx2, g2 x, if_neg hx1, g1 x, if_neg hx1]
  | some q =>
    obtain ⟨hq1, hq2, m, hm⟩ := hq q hnx
    have hq3 : h3.get q = some m := by
      rw [g3 q, if_neg hq2, g2 q, if_neg hq1, g1 q, if_neg hq1, hm]
    obtain ⟨h4, e4, z4, g4⟩ := set_prev_spec (some ni) hq3
    refine ⟨h4, e4, by omega, ?_, ?_, ?_, ?_⟩
    · rw [g4 ni, if_neg (Ne.symm hq1), hni3, hnx]
    · rw [g4 pi, if_neg (Ne.symm hq2), g3 pi, if_pos rfl]
    · intro q1 m1 hc hm1
      simp at hc
      subst hc
      rw [g4 q, if_pos rfl]
      rw [hm] at hm1
      simp at hm1
      rw [hm1]
    · intro x hx1 hx2 hx3
      have hx4 : x ≠ q := fun hc => hx3 (by rw [hc])
      rw [g4 x, if_neg hx4, g3 x, if_neg hx2, g2 x, if_neg hx1, g1 x, if_neg hx1]

theorem ptr_ne_of_entry {a b k l : Nat} (h : a ≠ b) : (⟨a, k⟩ : Ptr) ≠ ⟨b, l⟩ := by
  intro hc; apply h; injection hc

theorem ptr_ne_of_off {a b k l : Nat} (h : k ≠ l) : (⟨a, k⟩ : Ptr) ≠ ⟨b, l⟩ := by
  intro hc; apply h; injection hc

/-- One iteration of the splice loop at level `i`: the backward walk ends, without
meeting a NULL `prev`, on the nearest Entry `Q1` at or before `P` that has more
than `i` levels, and the new Entry is threaded behind it. -/
theorem splice_level_cursor_frame {h : Heap} {A C : List AEntry} {P nw Q : AEntry} {i : Nat}
    (hnd : ((A ++ P :: nw :: C).map (·.id)).Nodup)
    (hpos : ∀ a ∈ A ++ P :: C, 1 ≤ a.levels)
    (hhead : ∃ x ∈ A ++ [P], i < x.levels)
    (inv : Splicing h A P nw C i Q) (hi : i < nw.levels) :
    ∃ h1 Q1 A1 B, splice_level h ⟨nw.id, 0⟩ ⟨Q.id, 0⟩ i = .ok (h1, ⟨Q1.id, 0⟩) ∧
      A ++ [P] = A1 ++ Q1 :: B ∧ (∀ b ∈ B, b.levels ≤ i) ∧ i < Q1.levels ∧
      Splicing h1 A P nw C (i + 1) Q1 ∧ h1.size = h.size ∧
      (∀ x : Ptr, (∀ a ∈ A ++ P :: nw :: C, x.entry ≠ a.id) → h1.get x = h.get x) := by
  obtain ⟨A1, B, hsplit, hB, hQ⟩ := inv.cursor
  -- the level-0 chain passes through `Q`
  have hes : A ++ P :: C = A1 ++ Q :: (B ++ C) := by
    have : A ++ P :: C = (A ++ [P]) ++ C := by simp
    rw [this, hsplit]; simp
  have hes1 : A ++ P :: nw :: C = A1 ++ Q :: (B ++ nw :: C) := by
    have : A ++ P :: nw :: C = (A ++ [P]) ++ nw :: C := by simp
    rw [this, hsplit]; simp
  have hpos1 : ∀ a ∈ A ++ P :: nw :: C, 1 ≤ a.levels := by
    intro a ha
    simp at ha
    rcases ha with ha | ha | ha | ha
    · exact hpos a (by simp [ha])
    · exact hpos a (by simp [ha])
    · subst ha; omega
    · exact hpos a (by simp [ha])
  have hl0 : ∃ R, Linked h 0 none (A1 ++ Q :: R) := by
    have := inv.linked 0
    by_cases h0 : 0 < i
    · rw [if_pos h0, on_level_zero _ hpos1, hes1] at this
      exact ⟨_, this⟩
    · rw [if_neg h0, on_level_zero _ hpos, hes] at this
      exact ⟨_, this⟩
  obtain ⟨R, hl0⟩ := hl0
  have hnQ := Linked_split hl0
  -- the walk back
  have hmoved : ∃ A2 Q2 B2, A ++ [P] = A2 ++ Q2 :: B2 ∧ (∀ b ∈ B2, b.levels ≤ i) ∧
      i < Q2.levels ∧
      (if i = Q.levels then walk_back h i h.fuel ⟨Q.id, 0⟩ else .ok ⟨Q.id, 0⟩)
        = .ok ⟨Q2.id, 0⟩ := by
    by_cases hiQ : i = Q.levels
    · have hx : ∃ x ∈ A1 ++ [Q], i < x.levels := by
        obtain ⟨x, hx1, hx2⟩ := hhead
        refine ⟨x, ?_, by omega⟩
        rw [hsplit] at hx1
        simp at hx1 ⊢
        rcases hx1 with hx1 | hx1 | hx1
        · exact Or.inl hx1
        · exact Or.inr hx1
        · have := hB x hx1; omega
      have hfuel : A1.length < h.fuel := by
        have := inv.size_le
        rw [hes] at this
        simp at this
        unfold Heap.fuel
        omega
      obtain ⟨A2, Q2, B2, w1, w2, w3, w4⟩ := walk_back_spec h.fuel A1 Q R hl0 hx hfuel
      refine ⟨A2, Q2, B2 ++ B, ?_, ?_, w3, ?_⟩
      · have : A1 ++ Q :: B = (A1 ++ [Q]) ++ B := by simp
        rw [hsplit, this, w1]; simp
      · intro b hb
        simp at hb
        rcases hb with hb | hb
        · exact w2 b hb
        · exact hB b hb
      · rw [if_pos hiQ, w4]
    · exact ⟨A1, Q, B, hsplit, hB, by omega, by rw [if_neg hiQ]⟩
  obtain ⟨A2, Q2, B2, m1, m2, m3, m4⟩ := hmoved
  -- the level-`i` chain around `Q2`
  have hes2 : A ++ P :: C = A2 ++ Q2 :: (B2 ++ C) := by
    have : A ++ P :: C = (A ++ [P]) ++ C := by simp
    rw [this, m1]; simp
  have hes3 : A ++ P :: nw :: C = A2 ++ Q2 :: (B2 ++ nw :: C) := by
    have : A ++ P :: nw :: C = (A ++ [P]) ++ nw :: C := by simp
    rw [this, m1]; simp
  have hmemQ : Q2 ∈ A ++ P :: nw :: C := by rw [hes3]; simp
  have hB2 : on_level i B2 = [] := on_level_eq_nil m2
  have hlev : on_level i (A ++ P :: C) = on_level i A2 ++ Q2 :: on_level i C := by
    rw [hes2, on_level_append, on_level_cons_pos _ _ _ m3, on_level_append, hB2]; simp
  have hlev1 : on_level i (A ++ P :: nw :: C) = on_level i A2 ++ Q2 :: nw :: on_level i C := by
    rw [hes3, on_level_append, on_level_cons_pos _ _ _ m3, on_level_append, hB2,
      on_level_cons_pos _ _ _ hi]; simp
  have hli : Linked h i none (on_level i A2 ++ Q2 :: on_level i C) := by
    have := inv.linked i
    rw [if_neg (lt_irrefl i), hlev] at this
    exact this
  have hpin := Linked_split hli
  obtain ⟨n, hn1, hn2, hn3, hn4⟩ := inv.unlinked i (le_refl _) hi
  rw [hes3] at hnd
  simp only [List.map_append, List.map_cons, List.nodup_append, List.nodup_cons,
    List.mem_append, List.mem_cons, List.mem_map, List.disjoint_left, not_or] at hnd
  obtain ⟨_, ⟨⟨_, hQn, hCQ⟩, _, ⟨hCn, hCnd⟩, _⟩, hA⟩ := hnd
  have hCQ1 : ∀ c ∈ C, c.id ≠ Q2.id := fun c hc he => hCQ ⟨c, hc, he⟩
  have hCn1 : ∀ c ∈ C, c.id ≠ nw.id := fun c hc he => hCn ⟨c, hc, he⟩
  have hA1 : ∀ a ∈ A2, a.id ≠ Q2.id ∧ a.id ≠ nw.id ∧ ∀ c ∈ C, c.id ≠ a.id := by
    intro a ha
    obtain ⟨x1, _, x3, x4⟩ := hA ⟨a, ha, rfl⟩
    exact ⟨x1, x3, fun c hc he => x4 ⟨c, hc, he⟩⟩
  have hmemC : ∀ x ∈ on_level i C, x ∈ C := fun x hx => (List.mem_filter.1 hx).1
  have hmemA : ∀ x ∈ on_level i A2, x ∈ A2 := fun x hx => (List.mem_filter.1 hx).1
  -- the node behind `Q2` on level `i`, if any
  have hnext : ∀ c t, on_level i C = c :: t →
      h.get ⟨c.id, i⟩ = some (node_at i (some ⟨Q2.id, i⟩) c t) ∧ c ∈ C ∧
        ∀ a ∈ t, a.id ≠ c.id ∧ a ∈ C := by
    intro c t hct
    rw [hct] at hli
    have hli2 : Linked h i none ((on_level i A2 ++ [Q2]) ++ c :: t) := by simpa using hli
    have hc := Linked_split hli2
    rw [prev_of_append_singleton] at hc
    obtain ⟨C1, C2, e1, _, _, e4⟩ := on_level_eq_cons hct
    refine ⟨hc, by simp [e1], fun a ha => ?_⟩
    have ha2 : a ∈ C2 := by rw [← e4] at ha; exact (List.mem_filter.1 ha).1
    refine ⟨?_, by simp [e1, ha2]⟩
    rw [e1] at hCnd
    simp only [List.map_append, List.map_cons, List.nodup_append, List.nodup_cons,
      List.mem_map, not_exists, not_and] at hCnd
    exact hCnd.2.1.1 a ha2
  have hq : ∀ q, (node_at i (prev_of i none (on_level i A2)) Q2 (on_level i C)).next = some q →
      q ≠ ⟨nw.id, i⟩ ∧ q ≠ ⟨Q2.id, i⟩ ∧ ∃ m, h.get q = some m := by
    intro q hq
    cases hC : on_level i C with
    | nil => simp [node_at, hC] at hq
    | cons c t =>
      obtain ⟨g1, g2, _⟩ := hnext c t hC
      simp [node_at, hC] at hq
      subst hq
      exact ⟨ptr_ne_of_entry (hCn1 c g2), ptr_ne_of_entry (hCQ1 c g2), _, g1⟩
  obtain ⟨h1, t1, t2, t3, t4, t5, t6⟩ :=
    thread_spec hpin hn1 (ptr_ne_of_entry hQn) hq
  have hframe : ∀ e k, k ≠ i → h1.get ⟨e, k⟩ = h.get ⟨e, k⟩ := by
    intro e k hk
    refine t6 _ (ptr_ne_of_off hk) (ptr_ne_of_off hk) ?_
    intro hc
    cases hC : on_level i C with
    | nil => simp [node_at, hC] at hc
    | cons c t => simp [node_at, hC] at hc; omega
  refine ⟨h1, Q2, A2, B2, ?_, m1, m2, m3,
    ⟨?_, ?_, ⟨A2, B2, m1, fun b hb => by have := m2 b hb; omega, by omega⟩, ?_⟩, t2, ?_⟩
  · -- the code takes these steps
    unfold splice_level
    rw [load_eq_ok hnQ]
    simp only [node_at, m4, Nat.zero_add, t1]
  · -- every level is threaded
    intro k
    by_cases hk : k = i
    · subst hk
      rw [if_pos (Nat.lt_succ_self _), hlev1]
      refine Linked_splice hli ?_ ?_ ?_ ?_ ?_
      · rw [t4]; rfl
      · rw [t3]
        simp [node_at, hn2, hn3, hn4]
      · intro b t hbt
        obtain ⟨g1, _, _⟩ := hnext b t hbt
        rw [t5 ⟨b.id, k⟩ _ (by simp [node_at, hbt]) g1]
        rfl
      · intro a ha
        obtain ⟨x1, x2, x3⟩ := hA1 a (hmemA a ha)
        refine t6 _ (ptr_ne_of_entry x2) (ptr_ne_of_entry x1) ?_
        intro hc
        cases hC : on_level k C with
        | nil => simp [node_at, hC] at hc
        | cons c t =>
          simp [node_at, hC] at hc
          exact x3 c (hnext c t hC).2.1 hc
      · intro a ha
        cases hC : on_level k C with
        | nil => simp [hC] at ha
        | cons c t =>
          simp [hC] at ha
          obtain ⟨y1, y2⟩ := (hnext c t hC).2.2 a ha
          refine t6 _ (ptr_ne_of_entry (hCn1 a y2)) (ptr_ne_of_entry (hCQ1 a y2)) ?_
          intro hc
          simp [node_at, hC] at hc
          exact y1 hc.symm
    · have hmix : (if k < i + 1 then on_level k (A ++ P :: nw :: C)
            else on_level k (A ++ P :: C)) =
          (if k < i then on_level k (A ++ P :: nw :: C) else on_level k (A ++ P :: C)) := by
        by_cases hki : k < i
        · rw [if_pos hki, if_pos (by omega)]
        · rw [if_neg hki, if_neg (by omega)]
      rw [hmix]
      exact Linked_frame (fun a _ => hframe a.id k hk) (inv.linked k)
  · intro k hk1 hk2
    rw [hframe nw.id k (by omega)]
    exact inv.unlinked k (by omega) hk2
  · rw [t2]; exact inv.size_le
  · -- nothing outside the list and the new Entry is written
    intro x hx
    have hxQ : x.entry ≠ Q2.id := hx Q2 hmemQ
    have hxn : x.entry ≠ nw.id := hx nw (by simp)
    refine t6 x (fun hc => hxn (by rw [hc])) (fun hc => hxQ (by rw [hc])) ?_
    intro hc
    cases hC : on_level i C with
    | nil => simp [node_at, hC] at hc
    | cons c t =>
      simp [node_at, hC] at hc
      have hcC : c ∈ C := (hnext c t hC).2.1
      exact hx c (by simp [hcC]) (by rw [← hc])

theorem splice_level_cursor_at {h : Heap} {A C : List AEntry} {P nw Q : AEntry} {i : Nat}
    (hnd : ((A ++ P :: nw :: C).map (·.id)).Nodup)
    (hpos : ∀ a ∈ A ++ P :: C, 1 ≤ a.levels)
    (hhead : ∃ x ∈ A ++ [P], i < x.levels)
    (inv : Splicing h A P nw C i Q) (hi : i < nw.levels) :
    ∃ h1 Q1 A1 B, splice_level h ⟨nw.id, 0⟩ ⟨Q.id, 0⟩ i = .ok (h1, ⟨Q1.id, 0⟩) ∧
      A ++ [P] = A1 ++ Q1 :: B ∧ (∀ b ∈ B, b.levels ≤ i) ∧ i < Q1.levels ∧
      Splicing h1 A P nw C (i + 1) Q1 ∧ h1.size = h.size := by
  obtain ⟨h1, Q1, A1, B, s1, s2, s3, s4, s5, s6, _⟩ :=
    splice_level_cursor_frame hnd hpos hhead inv hi
  exact ⟨h1, Q1, A1, B, s1, s2, s3, s4, s5, s6⟩

theorem splice_level_cursor {h : Heap} {A C : List AEntry} {P nw Q : AEntry} {i : Nat}
    (hnd : ((A ++ P :: nw :: C).map (·.id)).Nodup)
    (hpos : ∀ a ∈ A ++ P :: C, 1 ≤ a.levels)
    (hhead : ∃ x ∈ A ++ [P], nw.levels ≤ x.levels)
    (inv : Splicing h A P nw C i Q) (hi : i < nw.levels) :
    ∃ h1 Q1 A1 B, splice_level h ⟨nw.id, 0⟩ ⟨Q.id, 0⟩ i = .ok (h1, ⟨Q1.id, 0⟩) ∧
      A ++ [P] = A1 ++ Q1 :: B ∧ (∀ b ∈ B, b.levels ≤ i) ∧ i < Q1.levels ∧
      Splicing h1 A P nw C (i + 1) Q1 ∧ h1.size = h.size := by
  obtain ⟨x, hx1, hx2⟩ := hhead
  exact splice_level_cursor_at hnd hpos ⟨x, hx1, by omega⟩ inv hi

theorem splice_level_spec {h : Heap} {A C : List AEntry} {P nw Q : AEntry} {i : Nat}
    (hnd : ((A ++ P :: nw :: C).map (·.id)).Nodup)
    (hpos : ∀ a ∈ A ++ P :: C, 1 ≤ a.levels)
    (hhead : ∃ x ∈ A ++ [P], nw.levels ≤ x.levels)
    (inv : Splicing h A P nw C i Q) (hi : i < nw.levels) :
    ∃ h1 Q1, splice_level h ⟨nw.id, 0⟩ ⟨Q.id, 0⟩ i = .ok (h1, ⟨Q1.id, 0⟩) ∧
      Splicing h1 A P nw C (i + 1) Q1 ∧ h1.size = h.size := by
  obtain ⟨h1, Q1, _, _, s1, _, _, _, s2, s3⟩ := splice_level_cursor hnd hpos hhead inv hi
  exact ⟨h1, Q1, s1, s2, s3⟩

theorem splice_loop_spec {A C : List AEntry} {P nw : AEntry}
    (hnd : ((A ++ P :: nw :: C).map (·.id)).Nodup)
    (hpos : ∀ a ∈ A ++ P :: C, 1 ≤ a.levels)
    (hhead : ∃ x ∈ A ++ [P], nw.levels ≤ x.levels) :
    ∀ (count i : Nat) (h : Heap) (Q : AEntry), Splicing h A P nw C i Q →
      i + count = nw.levels →
      ∃ h1 Q1, splice_loop ⟨nw.id, 0⟩ count i h ⟨Q.id, 0⟩ = .ok h1 ∧
        Splicing h1 A P nw C nw.levels Q1 ∧ h1.size = h.size := by
  intro count
  induction count with
  | zero =>
    intro i h Q inv hi
    have : i = nw.levels := by omega
    subst this
    exact ⟨h, Q, rfl, inv, rfl⟩
  | succ c ih =>
    intro i h Q inv hi
    obtain ⟨h1, Q1, s1, s2, z1⟩ := splice_level_spec hnd hpos hhead inv (by omega)
    obtain ⟨h2, Q2, s3, s4, z2⟩ := ih (i + 1) h1 Q1 s2 (by omega)
    refine ⟨h2, Q2, ?_, s4, by omega⟩
    rw [splice_loop, s1]
    exact s3

/-- The whole splice loop, with its footprint: besides threading the new Entry on
every one of its levels, the loop writes no node outside the list and the new
Entry. -/
theorem splice_loop_frame {A C : List AEntry} {P nw : AEntry}
    (hnd : ((A ++ P :: nw :: C).map (·.id)).Nodup)
    (hpos : ∀ a ∈ A ++ P :: C, 1 ≤ a.levels)
    (hhead : ∃ x ∈ A ++ [P], nw.levels ≤ x.levels) :
    ∀ (count i : Nat) (h : Heap) (Q : AEntry), Splicing h A P nw C i Q →
      i + count = nw.levels →
      ∃ h1 Q1, splice_loop ⟨nw.id, 0⟩ count i h ⟨Q.id, 0⟩ = .ok h1 ∧
        Splicing h1 A P nw C nw.levels Q1 ∧ h1.size = h.size ∧
        (∀ x : Ptr, (∀ a ∈ A ++ P :: nw :: C, x.entry ≠ a.id) → h1.get x = h.get x) := by
  intro count
  induction count with
  | zero =>
    intro i h Q inv hi
    have : i = nw.levels := by omega
    subst this
    exact ⟨h, Q, rfl, inv, rfl, fun _ _ => rfl⟩
  | succ c ih =>
    intro i h Q inv hi
    obtain ⟨x0, hx1, hx2⟩ := hhead
    obtain ⟨h1, Q1, _, _, s1, _, _, _, s2, z1, fr1⟩ :=
      splice_level_cursor_frame hnd hpos ⟨x0, hx1, by omega⟩ inv (by omega)
    obtain ⟨h2, Q2, s3, s4, z2, fr2⟩ := ih (i + 1) h1 Q1 s2 (by omega)
    refine ⟨h2, Q2, ?_, s4, by omega, fun x hx => ?_⟩
    · rw [splice_loop, s1]
      exact s3
    · rw [fr2 x hx, fr1 x hx]

theorem set_values_spec (e : Nat) (v : Int) :
    ∀ (count j : Nat) (h : Heap), (∀ i, i < count → ∃ m, h.get ⟨e, j + i⟩ = some m) →
      ∃ h1, set_values ⟨e, 0⟩ v count j h = .ok h1 ∧ h1.size = h.size ∧
        ∀ x, h1.get x =
          if x.entry = e ∧ j ≤ x.off ∧ x.off < j + count
          then (h.get x).map (fun m => { m with value := v }) else h.get x := by
  intro count
  induction count with
  | zero =>
    intro j h _
    refine ⟨h, rfl, rfl, fun x => ?_⟩
    have : ¬ (x.entry = e ∧ j ≤ x.off ∧ x.off < j + 0) := by omega
    rw [if_neg this]
  | succ c ih =>
    intro j h hex
    obtain ⟨m, hm⟩ := hex 0 (by omega)
    simp only [Nat.add_zero] at hm
    obtain ⟨h1, e1, z1, g1⟩ := set_value_spec v hm
    have hex1 : ∀ i, i < c → ∃ m, h1.get ⟨e, j + 1 + i⟩ = some m := by
      intro i hi
      obtain ⟨m1, hm1⟩ := hex (i + 1) (by omega)
      refine ⟨m1, ?_⟩
      rw [g1, if_neg (ptr_ne_of_off (by omega))]
      rw [← hm1]
      congr 2
      omega
    obtain ⟨h2, e2, z2, g2⟩ := ih (j + 1) h1 hex1
    refine ⟨h2, ?_, by omega, fun x => ?_⟩
    · rw [set_values]
      simp only [Nat.zero_add, e1, e2]
    · rw [g2 x, g1 x]
      by_cases hx : x = ⟨e, j⟩
      · subst hx
        have n1 : ¬ (e = e ∧ j + 1 ≤ j ∧ j < j + 1 + c) := by omega
        have n2 : (e = e ∧ j ≤ j ∧ j < j + (c + 1)) := ⟨rfl, le_refl _, by omega⟩
        rw [if_neg n1, if_pos n2, if_pos rfl, hm]
        rfl
      · rw [if_neg hx]
        by_cases hc : x.entry = e ∧ j + 1 ≤ x.off ∧ x.off < j + 1 + c
        · have n2 : x.entry = e ∧ j ≤ x.off ∧ x.off < j + (c + 1) := by omega
          rw [if_pos hc, if_pos n2]
        · have n2 : ¬ (x.entry = e ∧ j ≤ x.off ∧ x.off < j + (c + 1)) := by
            intro hn
            apply hc
            refine ⟨hn.1, ?_, by omega⟩
            by_contra hlt
            apply hx
            cases x
            simp at hn hlt ⊢
            omega
          rw [if_neg hc, if_neg n2]

/-- The head displacement of `skiplist_insert` (lines 123-133): the head Entry
takes the smaller value and the new array the larger; no node outside the head's
array and the new array is written. -/
theorem displace_head_frame {h : Heap} {a0 : AEntry} {rest : List AEntry} {nid L : Nat}
    {v : Int} (hl : ∀ k, Linked h k none (on_level k (a0 :: rest)))
    (hnd : ((a0 :: rest).map (·.id)).Nodup) (hfresh : ∀ a ∈ a0 :: rest, a.id ≠ nid)
    (hpos : 1 ≤ a0.levels) (hL : 1 ≤ L)
    (hnew : ∀ k, k < L → h.get ⟨nid, k⟩ = some ⟨none, none, k, L, v⟩) :
    ∃ h1 a1 v1, displace_head h ⟨a0.id, 0⟩ ⟨nid, 0⟩ v = .ok (h1, v1) ∧ h1.size = h.size ∧
      a1.id = a0.id ∧ a1.levels = a0.levels ∧ a1.value ≤ v1 ∧
      ((v < a0.value ∧ a1.value = v ∧ v1 = a0.value) ∨ (a0.value ≤ v ∧ a1 = a0 ∧ v1 = v)) ∧
      (∀ k, Linked h1 k none (on_level k (a1 :: rest))) ∧
      (∀ k, k < L → ∃ n, h1.get ⟨nid, k⟩ = some n ∧ n.level = k ∧ n.num_levels = L ∧
        n.value = v1) ∧
      (∀ x : Ptr, x.entry ≠ a0.id → x.entry ≠ nid → h1.get x = h.get x) := by
  have hn0 := node_of_linked (A := []) (hl 0) rfl hpos
  have hne0 : a0.id ≠ nid := hfresh a0 (by simp)
  unfold displace_head
  rw [load_eq_ok hn0]
  by_cases hv : v < a0.value
  · obtain ⟨h1, e1, z1, g1⟩ := set_values_spec a0.id v a0.levels 0 h
      (fun i hi => ⟨_, by simpa using node_of_linked (A := []) (hl i) rfl hi⟩)
    have hnew1 : ∀ k, k < L → h1.get ⟨nid, k⟩ = some ⟨none, none, k, L, v⟩ := by
      intro k hk
      rw [g1, if_neg (fun hc => hne0 hc.1.symm)]
      exact hnew k hk
    obtain ⟨h2, e2, z2, g2⟩ := set_values_spec nid a0.value L 0 h1
      (fun i hi => ⟨_, by simpa using hnew1 i hi⟩)
    have hrest : ∀ b ∈ rest, ∀ k, h2.get ⟨b.id, k⟩ = h.get ⟨b.id, k⟩ := by
      intro b hb k
      have hb1 : b.id ≠ nid := hfresh b (by simp [hb])
      have hb2 : b.id ≠ a0.id := by
        simp only [List.map_cons, List.nodup_cons, List.mem_map, not_exists, not_and] at hnd
        exact fun hc => hnd.1 b hb hc
      rw [g2, if_neg (fun hc => hb1 hc.1), g1, if_neg (fun hc => hb2 hc.1)]
    refine ⟨h2, { a0 with value := v }, a0.value, ?_, by omega, rfl, rfl, le_of_lt hv,
      Or.inl ⟨hv, rfl, rfl⟩, ?_, ?_, ?_⟩
    · simp only [node_at, gt_iff_lt, hv, if_true, e1, load_eq_ok (hnew1 0 hL), e2]
    · intro k
      have hlk := hl k
      by_cases hk : k < a0.levels
      · rw [on_level_cons_pos k _ _ hk] at hlk
        rw [on_level_cons_pos k _ _ (by exact hk)]
        refine ⟨?_, Linked_frame (fun b hb => hrest b (List.mem_filter.1 hb).1 k) hlk.2⟩
        rw [g2, if_neg (fun hc => hne0 hc.1), g1, if_pos ⟨rfl, Nat.zero_le _, (by show k < 0 + a0.levels; omega)⟩, hlk.1]
        rfl
      · rw [on_level_cons_neg k _ _ hk] at hlk
        rw [on_level_cons_neg k _ _ (by exact hk)]
        exact Linked_frame (fun b hb => hrest b (List.mem_filter.1 hb).1 k) hlk
    · intro k hk
      refine ⟨⟨none, none, k, L, a0.value⟩, ?_, rfl, rfl, rfl⟩
      rw [g2, if_pos ⟨rfl, Nat.zero_le _, (by show k < 0 + L; omega)⟩, hnew1 k hk]
      rfl
    · intro x hx1 hx2
      rw [g2, if_neg (fun hc => hx2 hc.1), g1, if_neg (fun hc => hx1 hc.1)]
  · refine ⟨h, a0, v, ?_, rfl, rfl, rfl, by omega, Or.inr ⟨by omega, rfl, rfl⟩, hl, ?_,
      fun _ _ _ => rfl⟩
    · simp only [node_at, gt_iff_lt, hv, if_false]
    · intro k hk
      exact ⟨_, hnew k hk, rfl, rfl, rfl⟩

theorem displace_head_spec {h : Heap} {a0 : AEntry} {rest : List AEntry} {nid L : Nat}
    {v : Int} (hl : ∀ k, Linked h k none (on_level k (a0 :: rest)))
    (hnd : ((a0 :: rest).map (·.id)).Nodup) (hfresh : ∀ a ∈ a0 :: rest, a.id ≠ nid)
    (hpos : 1 ≤ a0.levels) (hL : 1 ≤ L)
    (hnew : ∀ k, k < L → h.get ⟨nid, k⟩ = some ⟨none, none, k, L, v⟩) :
    ∃ h1 a1 v1, displace_head h ⟨a0.id, 0⟩ ⟨nid, 0⟩ v = .ok (h1, v1) ∧ h1.size = h.size ∧
      a1.id = a0.id ∧ a1.levels = a0.levels ∧ a1.value ≤ v1 ∧
      ((v < a0.value ∧ a1.value = v ∧ v1 = a0.value) ∨ (a0.value ≤ v ∧ a1 = a0 ∧ v1 = v)) ∧
      (∀ k, Linked h1 k none (on_level k (a1 :: rest))) ∧
      (∀ k, k < L → ∃ n, h1.get ⟨nid, k⟩ = some n ∧ n.level = k ∧ n.num_levels = L ∧
        n.value = v1) := by
  obtain ⟨h1, a1, v1, d1, d2, d3, d4, d5, d6, d7, d8, _⟩ :=
    displace_head_frame hl hnd hfresh hpos hL hnew
  exact ⟨h1, a1, v1, d1, d2, d3, d4, d5, d6, d7, d8⟩

/-! ## Insertion preserves the representation -/

theorem head_mem_of_cons_eq {a1 b : AEntry} {rest A C : List AEntry}
    (h : a1 :: rest = A ++ b :: C) : a1 ∈ A ++ [b] := by
  cases A with
  | nil => simp at h; simp [h.1]
  | cons x t => simp at h; simp [h.1]

theorem head?_insert_after (A : List AEntry) (b nw : AEntry) (C : List AEntry) :
    (A ++ b :: nw :: C).head? = (A ++ b :: C).head? := by
  cases A <;> rfl

theorem on_level_insert_of_le {k : Nat} (A : List AEntry) (b nw : AEntry) (C : List AEntry)
    (hk : nw.levels ≤ k) : on_level k (A ++ b :: nw :: C) = on_level k (A ++ b :: C) := by
  have h1 : A ++ b :: nw :: C = (A ++ [b]) ++ nw :: C := by simp
  have h2 : A ++ b :: C = (A ++ [b]) ++ C := by simp
  rw [h1, h2]
  simp only [on_level_append]
  rw [on_level_cons_neg k nw C (by omega)]

/-- Inserting into a non-empty list: `insert_with_level` succeeds, the head Entry
keeps its place and takes the smaller of its value and the new one, and the new
Entry, carrying the larger, is threaded behind the Entry the search returned;
the heap grows, and no node of an earlier allocation outside the list is
written. -/
theorem insert_with_level_frame {h : Heap} {self : skiplist_t} {es : List AEntry}
    (hr : Represents h self es) (v : Int) (L : Nat) (hL1 : 1 ≤ L)
    (hL2 : L ≤ self.max_num_levels) :
    ∃ h1 a0 rest a1 A b C,
      insert_with_level self v L h = .ok (self, h1) ∧
      es = a0 :: rest ∧ a1 = ⟨a0.id, a0.levels, min v a0.value⟩ ∧
      a1 :: rest = A ++ b :: C ∧
      b.value ≤ max v a0.value ∧
      (2 ≤ self.max_num_levels → ∀ c, C.head? = some c → max v a0.value < c.value) ∧
      Represents h1 self (A ++ b :: ⟨h.length, L, max v a0.value⟩ :: C) ∧
      h.size ≤ h1.size ∧
      (∀ x : Ptr, x.entry < h.length → (∀ a ∈ es, x.entry ≠ a.id) → h1.get x = h.get x) := by
  obtain ⟨a0, rest, hes⟩ := List.exists_cons_of_ne_nil hr.nonempty
  subst hes
  have hhd : self.head = some ⟨a0.id, 0⟩ := by simpa using hr.head_eq
  have hM : a0.levels = self.max_num_levels := hr.head_levels a0 rfl
  have hidlt : ∀ a ∈ a0 :: rest, a.id < h.length := by
    intro a ha
    obtain ⟨A, C, hsplit⟩ := List.append_of_mem ha
    exact get_lt_length (node_of_linked (hr.linked 0) hsplit (hr.levels_pos a ha))
  -- the heap after the allocation
  have hl0 : ∀ k, Linked (h ++ [init_nodes L v]) k none (on_level k (a0 :: rest)) := by
    intro k
    refine Linked_frame (fun a ha => ?_) (hr.linked k)
    exact get_append_old h _ _ (hidlt a (List.mem_filter.1 ha).1)
  have hfresh : ∀ a ∈ a0 :: rest, a.id ≠ h.length := fun a ha => by
    have := hidlt a ha; omega
  have hnew : ∀ k, k < L →
      (h ++ [init_nodes L v]).get ⟨h.length, k⟩ = some ⟨none, none, k, L, v⟩ := by
    intro k hk
    rw [get_append_new, init_nodes_get L v k hk]
  obtain ⟨h1, a1, v1, d1, d2, d3, d4, d5, d6, d7, d8, d9⟩ :=
    displace_head_frame hl0 hr.nodup hfresh (hr.levels_pos a0 (by simp)) hL1 hnew
  have hv1 : v1 = max v a0.value := by
    rcases d6 with ⟨x1, _, x3⟩ | ⟨x1, _, x3⟩
    · rw [x3, max_eq_right (le_of_lt x1)]
    · rw [x3, max_eq_left x1]
  have ha1 : a1 = ⟨a0.id, a0.levels, min v a0.value⟩ := by
    rcases d6 with ⟨x1, x2, _⟩ | ⟨x1, x2, _⟩
    · cases a1
      simp at d3 d4 x2
      simp [d3, d4, x2, min_eq_left (le_of_lt x1)]
    · rw [x2, min_eq_right x1]
  subst hv1
  have hpos1 : ∀ a ∈ a1 :: rest, 1 ≤ a.levels := by
    intro a ha
    simp at ha
    rcases ha with ha | ha
    · rw [ha, d4]; exact hr.levels_pos a0 (by simp)
    · exact hr.levels_pos a (by simp [ha])
  have hle1 : ∀ a ∈ a1 :: rest, a.levels ≤ self.max_num_levels := by
    intro a ha
    simp at ha
    rcases ha with ha | ha
    · rw [ha, d4]; exact hr.levels_le a0 (by simp)
    · exact hr.levels_le a (by simp [ha])
  have hsz1 : (a1 :: rest).length + self.max_num_levels ≤ h1.size + 1 := by
    have := hr.size_le
    rw [d2, size_append]
    simp at this ⊢
    omega
  have htop := top_of_head (d7 0) rfl (hpos1 a1 (by simp))
  obtain ⟨A, b, C, f1, f2, f3, f4⟩ := find_pred_spec d7 hpos1 hle1 hsz1 rfl d5
  rw [d3] at htop f2
  -- the splice
  have hids : (a1 :: rest).map (·.id) = (a0 :: rest).map (·.id) := by simp [d3]
  have hnd1 : ((A ++ b :: ⟨h.length, L, max v a0.value⟩ :: C).map (·.id)).Nodup := by
    have hp : (A ++ b :: ⟨h.length, L, max v a0.value⟩ :: C).Perm
        (⟨h.length, L, max v a0.value⟩ :: (A ++ b :: C)) := by
      have := @List.perm_middle _ (⟨h.length, L, max v a0.value⟩ : AEntry) (A ++ [b]) C
      simpa using this
    rw [(hp.map _).nodup_iff, ← f1, List.map_cons, hids, List.nodup_cons]
    refine ⟨?_, hr.nodup⟩
    simp only [List.mem_map, not_exists, not_and]
    intro x hx
    exact hfresh x hx
  have hhead : ∃ x ∈ A ++ [b], (⟨h.length, L, max v a0.value⟩ : AEntry).levels ≤ x.levels :=
    ⟨a1, head_mem_of_cons_eq f1, by show L ≤ a1.levels; omega⟩
  have inv0 : Splicing h1 A b ⟨h.length, L, max v a0.value⟩ C 0 b := by
    refine ⟨fun k => ?_, fun k _ hk => d8 k hk, ⟨A, [], rfl, by simp, Nat.zero_le _⟩, ?_⟩
    · rw [if_neg (Nat.not_lt_zero k), ← f1]; exact d7 k
    · rw [← f1]; omega
  obtain ⟨h2, Q1, s1, s2, z2, fr⟩ := splice_loop_frame hnd1 (by rw [← f1]; exact hpos1) hhead
    L 0 h1 b inv0 (by simp)
  refine ⟨h2, a0, rest, a1, A, b, C, ?_, rfl, ha1, f1, f3, ?_, ?_, ?_, ?_⟩
  · unfold insert_with_level
    simp only [hhd, d1, htop, f2, s1]
  · intro h2M
    exact f4 (by omega)
  · refine ⟨?_, by simp, ?_, hnd1, ?_, ?_, ?_, ?_⟩
    · rw [head?_insert_after, ← f1, hhd]; simp [d3]
    · intro a ha
      rw [head?_insert_after, ← f1] at ha
      simp at ha
      rw [← ha, d4, hM]
    · intro a ha
      simp at ha
      rcases ha with ha | ha | ha | ha
      · exact hpos1 a (by rw [f1]; simp [ha])
      · exact hpos1 a (by rw [f1]; simp [ha])
      · rw [ha]; exact hL1
      · exact hpos1 a (by rw [f1]; simp [ha])
    · intro a ha
      simp at ha
      rcases ha with ha | ha | ha | ha
      · exact hle1 a (by rw [f1]; simp [ha])
      · exact hle1 a (by rw [f1]; simp [ha])
      · rw [ha]; exact hL2
      · exact hle1 a (by rw [f1]; simp [ha])
    · intro k
      have := s2.linked k
      by_cases hk : k < L
      · rw [if_pos hk] at this; exact this
      · rw [if_neg hk] at this
        rw [on_level_insert_of_le A b _ C (by show L ≤ k; omega)]
        exact this
    · have e2 := hr.size_le
      have e3 : (A ++ b :: C).length = (a0 :: rest).length := by rw [← f1]; simp
      have e4 : (A ++ b :: ⟨h.length, L, max v a0.value⟩ :: C).length
          = (A ++ b :: C).length + 1 := by simp; omega
      rw [e4, e3, z2, d2, size_append, init_nodes_length]
      omega
  · rw [z2, d2, size_append]
    omega
  · intro x hx1 hx2
    have hx3 : ∀ a ∈ A ++ b :: ⟨h.length, L, max v a0.value⟩ :: C, x.entry ≠ a.id := by
      intro a ha
      have ha2 : a = ⟨h.length, L, max v a0.value⟩ ∨ a ∈ a1 :: rest := by
        rw [f1]
        simp at ha ⊢
        tauto
      rcases ha2 with ha2 | ha2
      · rw [ha2]; exact Nat.ne_of_lt hx1
      · simp at ha2
        rcases ha2 with ha2 | ha2
        · rw [ha2, d3]; exact hx2 a0 (by simp)
        · exact hx2 a (by simp [ha2])
    rw [fr x hx3, d9 x (hx2 a0 (by simp)) (Nat.ne_of_lt hx1), get_append_old h _ x hx1]

/-- Inserting into a non-empty list: `insert_with_level` succeeds, the head Entry
keeps its place and takes the smaller of its value and the new one, and the new
Entry, carrying the larger, is threaded behind the Entry the search returned. -/
theorem insert_with_level_spec {h : Heap} {self : skiplist_t} {es : List AEntry}
    (hr : Represents h self es) (v : Int) (L : Nat) (hL1 : 1 ≤ L)
    (hL2 : L ≤ self.max_num_levels) :
    ∃ h1 a0 rest a1 A b C,
      insert_with_level self v L h = .ok (self, h1) ∧
      es = a0 :: rest ∧ a1 = ⟨a0.id, a0.levels, min v a0.value⟩ ∧
      a1 :: rest = A ++ b :: C ∧
      b.value ≤ max v a0.value ∧
      (2 ≤ self.max_num_levels → ∀ c, C.head? = some c → max v a0.value < c.value) ∧
      Represents h1 self (A ++ b :: ⟨h.length, L, max v a0.value⟩ :: C) := by
  obtain ⟨h1, a0, rest, a1, A, b, C, i1, i2, i3, i4, i5, i6, i7, _⟩ :=
    insert_with_level_frame hr v L hL1 hL2
  exact ⟨h1, a0, rest, a1, A, b, C, i1, i2, i3, i4, i5, i6, i7⟩

theorem insert_empty_spec {h : Heap} {self : skiplist_t} (v : Int)
    (hhd : self.head = none) (hM : 1 ≤ self.max_num_levels) :
    insert_with_level self v self.max_num_levels h =
        .ok ({ self with head := some ⟨h.length, 0⟩ }, h ++ [init_nodes self.max_num_levels v]) ∧
      Represents (h ++ [init_nodes self.max_num_levels v])
        { self with head := some ⟨h.length, 0⟩ } [⟨h.length, self.max_num_levels, v⟩] := by
  refine ⟨by simp [insert_with_level, hhd], ⟨rfl, by simp, ?_, by simp, ?_, ?_, ?_, ?_⟩⟩
  · intro a ha; simp at ha; rw [← ha]
  · intro a ha; simp at ha; rw [ha]; exact hM
  · intro a ha; simp at ha; rw [ha]
  · intro k
    by_cases hk : k < self.max_num_levels
    · rw [on_level_cons_pos k _ _ (by exact hk)]
      refine ⟨?_, trivial⟩
      rw [get_append_new, init_nodes_get _ v k hk]
      rfl
    · rw [on_level_cons_neg k _ _ (by exact hk)]
      trivial
  · rw [size_append, init_nodes_length]
    simp
    omega

theorem perm_max_min (v a : Int) (l : List Int) :
    (max v a :: min v a :: l).Perm (v :: a :: l) := by
  rcases le_total v a with h | h
  · rw [max_eq_right h, min_eq_left h]
    exact List.Perm.swap _ _ _
  · rw [max_eq_left h, min_eq_right h]

theorem insert_good {M : Nat} {vs : List Int} {self : skiplist_t} {w : World}
    {es : List AEntry} (hg : Good M vs self w es) (v : Int) (hM1 : 1 ≤ M) (hM2 : M < 256) :
    ∃ w1 es1, skiplist_insert self v w = .ok (self, w1) ∧ Good M (v :: vs) self w1 es1 := by
  have hrange := generate_level_bounds self.max_num_levels self.p w.gen
    (by rw [hg.max_eq]; exact hM1)
  have hfirst : (generate_level_for_new_node self.max_num_levels self.p w.gen).2.first = false := by
    unfold generate_level_for_new_node
    split
    · rfl
    · exact hg.not_first
  unfold skiplist_insert
  generalize generate_level_for_new_node self.max_num_levels self.p w.gen = r at hrange hfirst ⊢
  obtain ⟨L, g1⟩ := r
  simp only at hrange hfirst ⊢
  have hmod : L % 256 = L := by
    apply Nat.mod_eq_of_lt
    have := hg.max_eq
    omega
  obtain ⟨h1, a0, rest, a1, A, b, C, i1, i2, i3, i4, i5, i6, i7⟩ :=
    insert_with_level_spec hg.repr v L hrange.1 hrange.2
  subst i2
  have hmin : ∀ a ∈ rest, a0.value ≤ a.value :=
    fun a ha => hg.head_min a0 rfl a (by simp [ha])
  have hmem : ∀ x, x ∈ A ++ b :: C ↔ x = a1 ∨ x ∈ rest := by
    intro x; rw [← i4]; simp
  have ha1v : a1.value = min v a0.value := by rw [i3]
  refine ⟨⟨h1, g1⟩, _, ?_, ⟨i7, hg.max_eq, hfirst, ?_, ?_, ?_⟩⟩
  · simp only [hmod, i1]
  · -- the values
    have hp : (A ++ b :: ⟨w.heap.length, L, max v a0.value⟩ :: C).Perm
        (⟨w.heap.length, L, max v a0.value⟩ :: (A ++ b :: C)) := by
      have := @List.perm_middle _ (⟨w.heap.length, L, max v a0.value⟩ : AEntry) (A ++ [b]) C
      simpa using this
    refine ((hp.map _).trans ?_)
    rw [← i4, List.map_cons, List.map_cons, ha1v]
    refine (perm_max_min v a0.value _).trans ?_
    have := hg.values
    rw [List.map_cons] at this
    exact List.Perm.cons _ this
  · -- the head carries the minimum
    intro x hx y hy
    rw [head?_insert_after, ← i4] at hx
    simp at hx
    subst hx
    rw [ha1v]
    have hy2 : y = ⟨w.heap.length, L, max v a0.value⟩ ∨ y ∈ A ++ b :: C := by
      simp at hy ⊢
      tauto
    rcases hy2 with hy2 | hy2
    · rw [hy2]; exact le_trans (min_le_left _ _) (le_max_left _ _)
    · rcases (hmem y).1 hy2 with hy3 | hy3
      · rw [hy3, ha1v]
      · exact le_trans (min_le_right _ _) (hmin y hy3)
  · -- the level-0 order
    intro h2M
    have hs := hg.sorted h2M
    have hs1 : (a1 :: rest).Pairwise (fun a b => a.value ≤ b.value) := by
      rw [List.pairwise_cons] at hs ⊢
      refine ⟨fun x hx => ?_, hs.2⟩
      rw [ha1v]
      exact le_trans (min_le_right _ _) (hs.1 x hx)
    rw [i4, List.pairwise_append, List.pairwise_cons] at hs1
    obtain ⟨p1, ⟨p2, p3⟩, p4⟩ := hs1
    rw [List.pairwise_append, List.pairwise_cons, List.pairwise_cons]
    have hnwC : ∀ c ∈ C, max v a0.value ≤ c.value := by
      intro c hc
      cases C with
      | nil => simp at hc
      | cons c0 C0 =>
        have hc0 := i6 (by rw [hg.max_eq]; exact h2M) c0 rfl
        rw [List.pairwise_cons] at p3
        simp at hc
        rcases hc with hc | hc
        · rw [hc]; exact le_of_lt hc0
        · exact le_trans (le_of_lt hc0) (p3.1 c hc)
    refine ⟨p1, ⟨?_, hnwC, p3⟩, ?_⟩
    · intro x hx
      simp at hx
      rcases hx with hx | hx
      · rw [hx]; exact i5
      · exact p2 x hx
    · intro x hx y hy
      simp at hy
      rcases hy with hy | hy | hy
      · exact p4 x hx y (by simp [hy])
      · rw [hy]; exact le_trans (p4 x hx b (by simp)) i5
      · exact p4 x hx y (by simp [hy])

theorem generate_level_first (M : Nat) (p : Nat → Bool) (g : gen_state)
    (hflag : g.first = true ∨ M = 1) :
    (generate_level_for_new_node M p g).1 = M ∧
      (generate_level_for_new_node M p g).2.first = false := by
  unfold generate_level_for_new_node
  by_cases hf : g.first = true
  · simp [hf]
  · rcases hflag with h | h
    · exact absurd h hf
    · subst h
      simp only [hf]
      simp [level_loop]

theorem first_insert_good (self : skiplist_t) (v : Int) (w : World)
    (hempty : self.head = none) (hM1 : 1 ≤ self.max_num_levels)
    (hM2 : self.max_num_levels < 256)
    (hflag : w.gen.first = true ∨ self.max_num_levels = 1) :
    ∃ g1, skiplist_insert self v w =
        .ok ({ self with head := some ⟨w.heap.length, 0⟩ },
          ⟨w.heap ++ [init_nodes self.max_num_levels v], g1⟩) ∧
      Good self.max_num_levels [v] { self with head := some ⟨w.heap.length, 0⟩ }
        ⟨w.heap ++ [init_nodes self.max_num_levels v], g1⟩
        [⟨w.heap.length, self.max_num_levels, v⟩] := by
  obtain ⟨e1, e2⟩ := generate_level_first self.max_num_levels self.p w.gen hflag
  obtain ⟨i1, i2⟩ := insert_empty_spec (h := w.heap) v hempty hM1
  refine ⟨(generate_level_for_new_node self.max_num_levels self.p w.gen).2, ?_,
    ⟨i2, rfl, e2, by simp, ?_, ?_⟩⟩
  · unfold skiplist_insert
    simp only [e1, Nat.mod_eq_of_lt hM2, i1]
  · intro a0 ha0 a ha
    simp at ha0 ha
    rw [ha, ha0]
  · intro _
    simp

theorem insert_all_good {M : Nat} {self : skiplist_t} (hM1 : 1 ≤ M) (hM2 : M < 256) :
    ∀ (vs vs0 : List Int) (w : World) (es : List AEntry), Good M vs0 self w es →
      ∃ w1 es1, insert_all vs self w = .ok (self, w1) ∧ Good M (vs.reverse ++ vs0) self w1 es1 := by
  intro vs
  induction vs with
  | nil => intro vs0 w es hg; exact ⟨w, es, rfl, by simpa using hg⟩
  | cons v t ih =>
    intro vs0 w es hg
    obtain ⟨w1, es1, s1, s2⟩ := insert_good hg v hM1 hM2
    obtain ⟨w2, es2, s3, s4⟩ := ih (v :: vs0) w1 es1 s2
    refine ⟨w2, es2, ?_, by simpa using s4⟩
    rw [insert_all, s1]
    exact s3

/-- Every non-empty run of insertions into a new list, started while the
first-call flag is set, succeeds and leaves a well-formed skip list holding the
inserted values. -/
theorem reachable_good (M : Nat) (p : Nat → Bool) (w0 : World) (vs : List Int)
    (hM1 : 1 ≤ M) (hM2 : M < 256) (hflag : w0.gen.first = true) (hne : vs ≠ []) :
    ∃ self w es, insert_all vs (new_skiplist M p) w0 = .ok (self, w) ∧
      Good M vs.reverse self w es := by
  obtain ⟨v, t, hvs⟩ := List.exists_cons_of_ne_nil hne
  subst hvs
  obtain ⟨g1, f1, f2⟩ := first_insert_good (new_skiplist M p) v w0 rfl hM1 hM2 (Or.inl hflag)
  obtain ⟨w2, es2, s1, s2⟩ := insert_all_good (by exact hM1) (by exact hM2) t [v] _ _ f2
  refine ⟨_, w2, es2, ?_, by simpa using s2⟩
  rw [insert_all, f1]
  exact s1

theorem head_node_of_good {M : Nat} {vs : List Int} {self : skiplist_t} {w : World}
    {es : List AEntry} (hg : Good M vs self w es) :
    ∃ n, head_node w.heap self = .ok n ∧ n.num_levels = M ∧ n.value ∈ vs ∧
      ∀ v ∈ vs, n.value ≤ v := by
  obtain ⟨a0, rest, hes⟩ := List.exists_cons_of_ne_nil hg.repr.nonempty
  subst hes
  have hhd : self.head = some ⟨a0.id, 0⟩ := by simpa using hg.repr.head_eq
  have hn := node_of_linked (A := []) (hg.repr.linked 0) rfl (hg.repr.levels_pos a0 (by simp))
  refine ⟨node_at 0 (prev_of 0 none (on_level 0 [])) a0 (on_level 0 rest),
    by simp [head_node, hhd, load_eq_ok hn], ?_, ?_, ?_⟩
  · show a0.levels = M
    rw [hg.repr.head_levels a0 rfl, hg.max_eq]
  · show a0.value ∈ vs
    exact hg.values.subset (by simp)
  · intro v hv
    show a0.value ≤ v
    have hv2 := hg.values.symm.subset hv
    simp only [List.mem_map] at hv2
    obtain ⟨a, ha, hav⟩ := hv2
    rw [← hav]
    exact hg.head_min a0 rfl a ha

/-- C4: in a process whose first-call flag is still set, after every non-empty
run of `skiplist_insert` calls on a new list with `1 <= max_num_levels`, for
every outcome of the level draws, the run succeeds, `list->head->value` is the
minimum of the inserted values and `list->head->num_levels` is
`max_num_levels`. -/
theorem head_is_minimum (M : Nat) (p : Nat → Bool) (w0 : World) (vs : List Int)
    (hM1 : 1 ≤ M) (hM2 : M < 256) (hflag : w0.gen.first = true) (hne : vs ≠ []) :
    ∃ n, observe (insert_all vs (new_skiplist M p) w0) head_node = .ok n ∧
      n.num_levels = M ∧ n.value ∈ vs ∧ ∀ v ∈ vs, n.value ≤ v := by
  obtain ⟨self, w, es, r1, r2⟩ := reachable_good M p w0 vs hM1 hM2 hflag hne
  obtain ⟨n, n1, n2, n3, n4⟩ := head_node_of_good r2
  refine ⟨n, ?_, n2, by simpa using n3, fun v hv => n4 v (by simpa using hv)⟩
  rw [r1]
  exact n1

theorem head_is_minimum_witness :
    (1 ≤ 4 ∧ 4 < 256 ∧ (fresh (fun n => 7 * n)).gen.first = true ∧ [50, 10, 30] ≠ ([] : List Int)) ∧
    ∃ n, observe (insert_all [50, 10, 30] (new_skiplist 4 (fun k => decide (k < 50)))
        (fresh (fun n => 7 * n))) head_node = .ok n ∧
      n.num_levels = 4 ∧ n.value ∈ [50, 10, 30] ∧ ∀ v ∈ [50, 10, 30], n.value ≤ v :=
  ⟨⟨by decide, by decide, rfl, by decide⟩,
    head_is_minimum 4 _ _ [50, 10, 30] (by decide) (by decide) rfl (by decide)⟩

/-! ## Runs with given levels, and the scenario of the specification -/

theorem insert_with_level_config {self s1 : skiplist_t} {v : Int} {L : Nat} {h h1 : Heap}
    (hi : insert_with_level self v L h = .ok (s1, h1)) :
    s1.max_num_levels = self.max_num_levels ∧ s1.p = self.p := by
  unfold insert_with_level at hi
  split at hi
  · simp at hi
    rw [← hi.1]
    exact ⟨rfl, rfl⟩
  · dsimp only at hi
    split at hi
    · simp at hi
    · split at hi
      · simp at hi
      · split at hi
        · simp at hi
        · split at hi
          · simp at hi
          · simp at hi
            rw [← hi.1]
            exact ⟨rfl, rfl⟩

/-- The level draws enter a run of insertions only through the levels they
produce: the run equals one with given levels, each between 1 and
`max_num_levels`, the first being `max_num_levels` when the first-call flag is
set. -/
theorem insert_all_eq_levels : ∀ (vs : List Int) (self : skiplist_t) (w : World),
    1 ≤ self.max_num_levels → self.max_num_levels < 256 →
    ∃ Ls : List Nat, Ls.length = vs.length ∧
      (∀ L ∈ Ls, 1 ≤ L ∧ L ≤ self.max_num_levels) ∧
      (w.gen.first = true → ∀ L0, Ls.head? = some L0 → L0 = self.max_num_levels) ∧
      ∀ {α : Type} (f : Heap → skiplist_t → Except Fault α),
        observe (insert_all vs self w) f =
          observe_heap (insert_levels (vs.zip Ls) self w.heap) f := by
  intro vs
  induction vs with
  | nil =>
    intro self w _ _
    exact ⟨[], rfl, by simp, by simp, fun f => rfl⟩
  | cons v t ih =>
    intro self w hM1 hM2
    have hrange := generate_level_bounds self.max_num_levels self.p w.gen hM1
    have hfirst := fun hf => (generate_level_first self.max_num_levels self.p w.gen (Or.inl hf)).1
    have hmod : (generate_level_for_new_node self.max_num_levels self.p w.gen).1 % 256 =
        (generate_level_for_new_node self.max_num_levels self.p w.gen).1 :=
      Nat.mod_eq_of_lt (by omega)
    cases hi : insert_with_level self v
        (generate_level_for_new_node self.max_num_levels self.p w.gen).1 w.heap with
    | error e =>
      refine ⟨(generate_level_for_new_node self.max_num_levels self.p w.gen).1 ::
        List.replicate t.length 1, by simp, ?_, ?_, fun f => ?_⟩
      · intro L hL
        simp at hL
        rcases hL with hL | hL
        · rw [hL]; exact hrange
        · rw [hL.2]; exact ⟨le_refl _, hM1⟩
      · intro hf L0 hL0
        simp at hL0
        rw [← hL0]; exact hfirst hf
      · simp [insert_all, skiplist_insert, hmod, hi, insert_levels, observe, observe_heap]
    | ok r =>
      obtain ⟨s1, h1⟩ := r
      obtain ⟨c1, _⟩ := insert_with_level_config hi
      obtain ⟨Ls, l1, l2, _, l4⟩ := ih s1
        ⟨h1, (generate_level_for_new_node self.max_num_levels self.p w.gen).2⟩
        (by rw [c1]; exact hM1) (by rw [c1]; exact hM2)
      refine ⟨(generate_level_for_new_node self.max_num_levels self.p w.gen).1 :: Ls,
        by simp [l1], ?_, ?_, fun f => ?_⟩
      · intro L hL
        simp at hL
        rcases hL with hL | hL
        · rw [hL]; exact hrange
        · rw [← c1]; exact l2 L hL
      · intro hf L0 hL0
        simp at hL0
        rw [← hL0]; exact hfirst hf
      · have := l4 f
        simp only [insert_all, skiplist_insert, hmod, hi, insert_levels, List.zip_cons_cons]
        exact this

/-- C9: in a fresh process, for `new_skiplist(4, 0.5)` and every outcome of the
level draws, after inserting 50, 10, 30: `contains` is true for 10, 30 and 50 and
false for 20, the head holds value 10 with `num_levels` 4, and the level-0 chain
reads 10, 30, 50. -/
theorem scenario_50_10_30 (rand : Nat → Nat) :
    observe (insert_all [50, 10, 30] (new_skiplist 4 p_half) (fresh rand))
        (fun h s => skiplist_contains h s 10) = .ok true ∧
    observe (insert_all [50, 10, 30] (new_skiplist 4 p_half) (fresh rand))
        (fun h s => skiplist_contains h s 30) = .ok true ∧
    observe (insert_all [50, 10, 30] (new_skiplist 4 p_half) (fresh rand))
        (fun h s => skiplist_contains h s 50) = .ok true ∧
    observe (insert_all [50, 10, 30] (new_skiplist 4 p_half) (fresh rand))
        (fun h s => skiplist_contains h s 20) = .ok false ∧
    observe (insert_all [50, 10, 30] (new_skiplist 4 p_half) (fresh rand))
        (fun h s => (head_node h s).map fun n => (n.value, n.num_levels)) = .ok (10, 4) ∧
    observe (insert_all [50, 10, 30] (new_skiplist 4 p_half) (fresh rand))
        (fun h s => level_values h s 0) = .ok [10, 30, 50] := by
  obtain ⟨Ls, l1, l2, l3, l4⟩ := insert_all_eq_levels [50, 10, 30] (new_skiplist 4 p_half)
    (fresh rand) (by decide) (by decide)
  match Ls, l1 with
  | [L1, L2, L3], _ =>
    have h1 : L1 = 4 := l3 rfl L1 rfl
    have h2 := l2 L2 (by simp)
    have h3 := l2 L3 (by simp)
    have hh : (fresh rand).heap = [] := rfl
    simp only [l4, hh]
    subst h1
    obtain ⟨h2a, h2b⟩ := h2
    obtain ⟨h3a, h3b⟩ := h3
    change L2 ≤ 4 at h2b
    change L3 ≤ 4 at h3b
    clear l2 l3 l4 hh
    interval_cases L2 <;> interval_cases L3 <;> decide

/-! ## Lookup on a well-formed list -/

/-- On a well-formed list, a lookup that reports a value as present reports
`level = 0` and the value itself. -/
theorem element_info_of_represents {h : Heap} {self : skiplist_t} {es : List AEntry}
    (hr : Represents h self es) (v : Int) (info : skiplist_element_info_t)
    (hi : skiplist_get_element_info h self v = .ok info) (hex : info.exists_ = true) :
    info.level = 0 ∧ info.value = v := by
  obtain ⟨a0, rest, hes⟩ := List.exists_cons_of_ne_nil hr.nonempty
  subst hes
  have hhd : self.head = some ⟨a0.id, 0⟩ := by simpa using hr.head_eq
  have hp0 := hr.levels_pos a0 (by simp)
  have htop := top_of_head (hr.linked 0) rfl hp0
  unfold skiplist_get_element_info _skiplist_find at hi
  simp only [hhd, htop] at hi
  by_cases hv : a0.value ≤ v
  · obtain ⟨A, b, C, f1, f2, _, _⟩ :=
      find_pred_spec hr.linked hr.levels_pos hr.levels_le hr.size_le rfl hv
    have hnb := node_of_linked (hr.linked 0) f1 (hr.levels_pos b (by simp [f1]))
    simp only [f2, load_eq_ok hnb] at hi
    by_cases hbv : b.value = v
    · simp [node_at, hbv, load_eq_ok hnb] at hi
      rw [← hi]
      exact ⟨rfl, rfl⟩
    · simp [node_at, hbv] at hi
      rw [← hi] at hex
      simp at hex
  · have hn := node_of_linked (A := []) (hr.linked (a0.levels - 1)) rfl (by omega)
    simp [_skiplist_find_headnode_predecessor, load_eq_ok hn, node_at, hv] at hi

/-- With `max_num_levels = 1` every Entry has one level, whatever is drawn. -/
theorem insert_all_one_level (vs : List Int) (p : Nat → Bool) (rand : Nat → Nat) {α : Type}
    (f : Heap → skiplist_t → Except Fault α) :
    observe (insert_all vs (new_skiplist 1 p) (fresh rand)) f =
      observe_heap (insert_levels (vs.zip (List.replicate vs.length 1)) (new_skiplist 1 p) []) f := by
  obtain ⟨Ls, l1, l2, _, l4⟩ := insert_all_eq_levels vs (new_skiplist 1 p) (fresh rand)
    (le_refl 1) (by show 1 < 256; omega)
  have hLs : Ls = List.replicate vs.length 1 := by
    rw [List.eq_replicate_iff]
    refine ⟨l1, fun L hL => ?_⟩
    have := l2 L hL
    change 1 ≤ L ∧ L ≤ 1 at this
    omega
  rw [l4, hLs]
  rfl

/-! ## The claims that the code does not meet -/

/-- C1 (failing input): with `max_num_levels = 1`, after inserting 3 and then 5
in a fresh process, `skiplist_contains(list, 5)` returns false right after 5 was
inserted, for every outcome of the level draws. -/
theorem contains_lost_with_one_level (rand : Nat → Nat) :
    observe (insert_all [3, 5] (new_skiplist 1 p_half) (fresh rand))
      (fun h s => skiplist_contains h s 5) = .ok false := by
  rw [insert_all_one_level]
  decide

/-- C2 (failing input): after inserting 10 into `new_skiplist(4, 0.5)` in a fresh
process, `skiplist_contains(list, 5)` does not return false: the search is
started at the head, whose value 10 exceeds 5, and `assert(node->value <= value)`
fails. -/
theorem contains_below_minimum_aborts (rand : Nat → Nat) :
    observe (insert_all [10] (new_skiplist 4 p_half) (fresh rand))
      (fun h s => skiplist_contains h s 5) = .error .assertion := by
  rfl

/-- C3 (failing input): with `max_num_levels = 1`, after inserting 3, 5, 8 in a
fresh process the level-0 chain reads 3, 8, 5, so the adjacent pair (8, 5) is out
of order, and the monotonicity `assert` of `skiplist_print` fails. -/
theorem one_level_chain_unsorted (rand : Nat → Nat) :
    observe (insert_all [3, 5, 8] (new_skiplist 1 p_half) (fresh rand))
      (fun h s => level_values h s 0) = .ok [3, 8, 5] ∧
    observe (insert_all [3, 5, 8] (new_skiplist 1 p_half) (fresh rand))
      skiplist_print = .error .assertion := by
  rw [insert_all_one_level, insert_all_one_level]
  decide

/-- C6 (failing input): with `max_num_levels = 1`, after inserting 3 and 5 the
level-0 chain is 3, 5 and the head holds the minimum 3, yet the predecessor
search for target 5 from the head's top node returns the head Entry (allocation
0, value 3), whose level-0 `next` is the Entry of value 5. -/
theorem predecessor_stays_at_head_with_one_level (rand : Nat → Nat) :
    observe (insert_all [3, 5] (new_skiplist 1 p_half) (fresh rand))
      (fun h s => level_values h s 0) = .ok [3, 5] ∧
    observe (insert_all [3, 5] (new_skiplist 1 p_half) (fresh rand))
      (fun h s => find_from_head h s 5) = .ok ⟨0, 0⟩ ∧
    observe (insert_all [3, 5] (new_skiplist 1 p_half) (fresh rand))
      (fun h _ => load h ⟨0, 0⟩) = .ok ⟨some ⟨1, 0⟩, none, 0, 1, 3⟩ ∧
    observe (insert_all [3, 5] (new_skiplist 1 p_half) (fresh rand))
      (fun h _ => load h ⟨1, 0⟩) = .ok ⟨none, some ⟨0, 0⟩, 0, 1, 5⟩ := by
  simp only [insert_all_one_level]
  decide

/-- C7 (failing input): after inserting 7 into `new_skiplist(4, 0.5)` in a fresh
process the Entry found for 7 has `num_levels` 4, but
`skiplist_get_element_info(list, 7)` reports `level` 0: it copies the `level`
field of the Entry's level-0 node. -/
theorem element_info_level_is_zero (rand : Nat → Nat) :
    observe (insert_all [7] (new_skiplist 4 p_half) (fresh rand))
      (fun h s => skiplist_get_element_info h s 7) =
        .ok { level := 0, value := 7, exists_ := true } ∧
    observe (insert_all [7] (new_skiplist 4 p_half) (fresh rand))
      (fun h s => (head_node h s).map (·.num_levels)) = .ok 4 := by
  exact ⟨rfl, rfl⟩

/-- C10 (failing input): with `max_num_levels = 1`, after inserting 5, 3, 8, 1 the
level-0 chain from the head reads 1, 3, 8, 5, for every outcome of the level
draws. -/
theorem one_level_scenario_chain (rand : Nat → Nat) :
    observe (insert_all [5, 3, 8, 1] (new_skiplist 1 p_half) (fresh rand))
      (fun h s => level_values h s 0) = .ok [1, 3, 8, 5] := by
  rw [insert_all_one_level]
  decide

/-! ## The first insertion -/

/-- While the first-call flag of the level generator is still set (or when
`max_num_levels = 1`), the first `skiplist_insert` into an empty list with
`1 <= max_num_levels` allocates an Entry of exactly `max_num_levels` nodes, each
with `num_levels = max_num_levels`, and makes it `list->head`. -/
theorem first_insert_levels (self : skiplist_t) (v : Int) (w : World)
    (hempty : self.head = none) (hM1 : 1 ≤ self.max_num_levels)
    (hM2 : self.max_num_levels < 256)
    (hflag : w.gen.first = true ∨ self.max_num_levels = 1) :
    ∃ self1 w1, skiplist_insert self v w = .ok (self1, w1) ∧
      self1.head = some ⟨w.heap.length, 0⟩ ∧
      w1.heap = w.heap ++ [init_nodes self.max_num_levels v] ∧
      head_node w1.heap self1 = .ok ⟨none, none, 0, self.max_num_levels, v⟩ := by
  obtain ⟨g1, f1, f2⟩ := first_insert_good self v w hempty hM1 hM2 hflag
  refine ⟨_, _, f1, rfl, rfl, ?_⟩
  have hn := node_of_linked (A := []) (f2.repr.linked 0) rfl (by exact hM1)
  simp only [head_node]
  rw [load_eq_ok hn]
  rfl

theorem first_insert_levels_witness :
    ((new_skiplist 4 p_half).head = none ∧ 1 ≤ (new_skiplist 4 p_half).max_num_levels ∧
      (new_skiplist 4 p_half).max_num_levels < 256 ∧
      ((fresh (fun _ => 0)).gen.first = true ∨ (new_skiplist 4 p_half).max_num_levels = 1)) ∧
    ∃ self1 w1, skiplist_insert (new_skiplist 4 p_half) 7 (fresh (fun _ => 0)) = .ok (self1, w1) ∧
      self1.head = some ⟨(fresh (fun _ => 0)).heap.length, 0⟩ ∧
      w1.heap = (fresh (fun _ => 0)).heap ++ [init_nodes (new_skiplist 4 p_half).max_num_levels 7] ∧
      head_node w1.heap self1 = .ok ⟨none, none, 0, (new_skiplist 4 p_half).max_num_levels, 7⟩ :=
  ⟨⟨rfl, by decide, by decide, Or.inl rfl⟩,
    first_insert_levels (new_skiplist 4 p_half) 7 (fresh (fun _ => 0)) rfl (by decide) (by decide)
      (Or.inl rfl)⟩

/-- In a process where a first list has already taken an insertion (so the
first-call flag is cleared), the first insertion into a second list made by
`new_skiplist(2, 0.5)` creates, when the draw fails (`rand()` gives 99), a head
Entry whose `num_levels` is 1, not 2. -/
theorem second_list_head_levels :
    (match skiplist_insert (new_skiplist 2 p_half) 1 (fresh (fun _ => 99)) with
      | Except.error e => Except.error e
      | Except.ok (_, w) => observe (skiplist_insert (new_skiplist 2 p_half) 7 w) head_node) =
      Except.ok ⟨none, none, 0, 1, 7⟩ := by
  decide

/-- C5 (failing input): the first insertion into an empty list does not always
create an Entry of `max_num_levels` levels. The process draws `rand()` = 99, 0,
0, ... and one insertion into a first list has cleared the function-local
first-call flag. Then the first `skiplist_insert` into a second list made by
`new_skiplist(2, 0.5)` creates a head whose `num_levels` is 1, not 2. The rest of
the code relies on the head having `max_num_levels` levels: `skiplist_print`
reads `head[1]`, outside the head's array, and the next insertion, whose drawn
level is 2, walks back past the head and reads through its NULL `prev`. In a
process whose flag is still set the same two insertions succeed and the head has
2 levels. -/
theorem second_list_head_misses_max_levels :
    (match insert_all [1] (new_skiplist 2 p_half) (fresh (fun n => if n = 0 then 99 else 0)) with
      | Except.error e => Except.error e
      | Except.ok (_, w) => observe (insert_all [7] (new_skiplist 2 p_half) w) head_node) =
        Except.ok ⟨none, none, 0, 1, 7⟩ ∧
    (match insert_all [1] (new_skiplist 2 p_half) (fresh (fun n => if n = 0 then 99 else 0)) with
      | Except.error e => Except.error e
      | Except.ok (_, w) => observe (insert_all [7] (new_skiplist 2 p_half) w) skiplist_print) =
        Except.error Fault.out_of_bounds ∧
    (match insert_all [1] (new_skiplist 2 p_half) (fresh (fun n => if n = 0 then 99 else 0)) with
      | Except.error e => Except.error e
      | Except.ok (_, w) => observe (insert_all [7, 9] (new_skiplist 2 p_half) w) head_node) =
        Except.error Fault.null_deref ∧
    observe (insert_all [7, 9] (new_skiplist 2 p_half) (fresh (fun n => if n = 0 then 99 else 0)))
        head_node = Except.ok ⟨some ⟨1, 0⟩, none, 0, 2, 7⟩ := by
  decide

/-! ## The chains of a reachable list -/

theorem chain_linked {h : Heap} {k : Nat} :
    ∀ (l : List AEntry) (prev : Option Ptr) (fuel : Nat), Linked h k prev l → l.length < fuel →
      ∃ ns, chain h fuel (l.head?.map fun a => ⟨a.id, k⟩) = .ok ns ∧
        ns.map (·.value) = l.map (·.value) := by
  intro l
  induction l with
  | nil =>
    intro prev fuel _ hf
    cases fuel with
    | zero => omega
    | succ f => exact ⟨[], rfl, rfl⟩
  | cons a t ih =>
    intro prev fuel hl hf
    cases fuel with
    | zero => omega
    | succ f =>
      obtain ⟨ns, c1, c2⟩ := ih (some ⟨a.id, k⟩) f hl.2 (by simp at hf; omega)
      refine ⟨node_at k prev a t :: ns, ?_, by simp [c2, node_at]⟩
      simp only [List.head?_cons, Option.map_some', chain, load_eq_ok hl.1]
      have : (node_at k prev a t).next = t.head?.map fun b => ⟨b.id, k⟩ := rfl
      rw [this, c1]

theorem chain_ptrs_linked {h : Heap} {k : Nat} :
    ∀ (l : List AEntry) (prev : Option Ptr) (fuel : Nat), Linked h k prev l → l.length < fuel →
      chain_ptrs h fuel (l.head?.map fun a => ⟨a.id, k⟩) = .ok (l.map fun a => ⟨a.id, k⟩) := by
  intro l
  induction l with
  | nil =>
    intro prev fuel _ hf
    cases fuel with
    | zero => omega
    | succ f => rfl
  | cons a t ih =>
    intro prev fuel hl hf
    cases fuel with
    | zero => omega
    | succ f =>
      have c1 := ih (some ⟨a.id, k⟩) f hl.2 (by simp at hf; omega)
      simp only [List.head?_cons, Option.map_some', chain_ptrs, load_eq_ok hl.1]
      have : (node_at k prev a t).next = t.head?.map fun b => ⟨b.id, k⟩ := rfl
      rw [this, c1]
      rfl

theorem on_level_length_lt_fuel {h : Heap} {self : skiplist_t} {es : List AEntry}
    (hr : Represents h self es) (k : Nat) : (on_level k es).length < h.fuel := by
  have h1 : (on_level k es).length ≤ es.length := List.length_filter_le _ _
  have h2 := hr.size_le
  unfold Heap.fuel
  omega

theorem on_level_head {h : Heap} {self : skiplist_t} {a0 : AEntry} {rest : List AEntry}
    (hr : Represents h self (a0 :: rest)) {k : Nat} (hk : k < self.max_num_levels) :
    on_level k (a0 :: rest) = a0 :: on_level k rest :=
  on_level_cons_pos k a0 rest (by rw [hr.head_levels a0 rfl]; exact hk)

/-- The level-`k` chain of a well-formed list, as pointers. -/
theorem level_ptrs_spec {h : Heap} {self : skiplist_t} {es : List AEntry}
    (hr : Represents h self es) {k : Nat} (hk : k < self.max_num_levels) :
    level_ptrs h self k = .ok ((on_level k es).map fun a => ⟨a.id, k⟩) := by
  obtain ⟨a0, rest, hes⟩ := List.exists_cons_of_ne_nil hr.nonempty
  subst hes
  have hhd : self.head = some ⟨a0.id, 0⟩ := by simpa using hr.head_eq
  have hc := chain_ptrs_linked _ none h.fuel (hr.linked k) (on_level_length_lt_fuel hr k)
  rw [on_level_head hr hk] at hc ⊢
  simp only [level_ptrs, hhd, Nat.zero_add]
  simpa using hc

/-- The level-`k` chain of a well-formed list, as values. -/
theorem level_values_spec {h : Heap} {self : skiplist_t} {es : List AEntry}
    (hr : Represents h self es) {k : Nat} (hk : k < self.max_num_levels) :
    level_values h self k = .ok ((on_level k es).map (·.value)) := by
  obtain ⟨a0, rest, hes⟩ := List.exists_cons_of_ne_nil hr.nonempty
  subst hes
  have hhd : self.head = some ⟨a0.id, 0⟩ := by simpa using hr.head_eq
  obtain ⟨ns, c1, c2⟩ := chain_linked _ none h.fuel (hr.linked k) (on_level_length_lt_fuel hr k)
  rw [on_level_head hr hk] at c1
  simp only [List.head?_cons, Option.map_some'] at c1
  simp only [level_values, hhd, Nat.zero_add, c1, c2]

/-- Every run of insertions started with the first-call flag set returns; the
list is then empty (no insertion) or well formed. -/
theorem reachable_cases (M : Nat) (p : Nat → Bool) (w0 : World) (vs : List Int)
    (hM1 : 1 ≤ M) (hM2 : M < 256) (hflag : w0.gen.first = true) :
    ∃ self w, insert_all vs (new_skiplist M p) w0 = .ok (self, w) ∧
      self.max_num_levels = M ∧
      ((vs = [] ∧ self.head = none ∧ w = w0) ∨ ∃ es, Good M vs.reverse self w es) := by
  by_cases hne : vs = []
  · subst hne
    exact ⟨new_skiplist M p, w0, rfl, rfl, Or.inl ⟨rfl, rfl, rfl⟩⟩
  · obtain ⟨self, w, es, r1, r2⟩ := reachable_good M p w0 vs hM1 hM2 hflag hne
    exact ⟨self, w, r1, r2.max_eq, Or.inr ⟨es, r2⟩⟩

/-- Lookup on a well-formed list, for a target not below the head's value: the
search returns an Entry `b` with `b.value <= v` whose level-0 successor, when
the list has two levels or more, is absent or greater than `v`; and
`skiplist_contains` answers whether `b.value = v`. -/
theorem contains_spec {h : Heap} {self : skiplist_t} {a0 : AEntry} {rest : List AEntry}
    (hr : Represents h self (a0 :: rest)) (v : Int) (hv : a0.value ≤ v) :
    ∃ A b C, a0 :: rest = A ++ b :: C ∧ b.value ≤ v ∧
      (2 ≤ self.max_num_levels → ∀ c, C.head? = some c → v < c.value) ∧
      find_from_head h self v = .ok ⟨b.id, 0⟩ ∧
      skiplist_contains h self v = .ok (decide (b.value = v)) := by
  have hhd : self.head = some ⟨a0.id, 0⟩ := by simpa using hr.head_eq
  have hp0 := hr.levels_pos a0 (by simp)
  have htop := top_of_head (hr.linked 0) rfl hp0
  obtain ⟨A, b, C, f1, f2, f3, f4⟩ :=
    find_pred_spec hr.linked hr.levels_pos hr.levels_le hr.size_le rfl hv
  have hnb := node_of_linked (hr.linked 0) f1 (hr.levels_pos b (by simp [f1]))
  refine ⟨A, b, C, f1, f3, ?_, ?_, ?_⟩
  · intro h2
    exact f4 (by rw [hr.head_levels a0 rfl]; exact h2)
  · simp only [find_from_head, hhd, htop, f2]
  · simp only [skiplist_contains, skiplist_get_element_info, _skiplist_find, hhd, htop, f2,
      load_eq_ok hnb]
    by_cases hbv : b.value = v
    · simp [node_at, hbv, load_eq_ok hnb]
    · simp [node_at, hbv]

/-- In a non-decreasing list, the Entry returned by the search carries the
target exactly when the target is stored. -/
theorem found_iff_mem {es A C : List AEntry} {b : AEntry} {v : Int}
    (hs : es.Pairwise (fun a b => a.value ≤ b.value)) (hes : es = A ++ b :: C)
    (hb : b.value ≤ v) (hc : ∀ c, C.head? = some c → v < c.value) :
    b.value = v ↔ v ∈ es.map (·.value) := by
  subst hes
  rw [List.pairwise_append, List.pairwise_cons] at hs
  obtain ⟨_, ⟨p2, p3⟩, p4⟩ := hs
  constructor
  · intro h; simp only [List.mem_map]; exact ⟨b, by simp, h⟩
  · intro hmem
    simp only [List.mem_map, List.mem_append, List.mem_cons] at hmem
    obtain ⟨c, hc1, hc2⟩ := hmem
    rcases hc1 with hc1 | hc1 | hc1
    · have := p4 c hc1 b (by simp)
      omega
    · rw [← hc2, hc1]
    · cases C with
      | nil => simp at hc1
      | cons c0 C0 =>
        have h0 := hc c0 rfl
        rw [List.pairwise_cons] at p3
        simp at hc1
        rcases hc1 with hc1 | hc1
        · rw [hc1] at hc2; omega
        · have := p3.1 c hc1; omega

/-- On a well-formed list every node of the level-`k` chain is a level-`k`
node whose `next` and `prev`, where present, are level-`k` nodes that point
back at it. -/
theorem links_of_represents {h : Heap} {self : skiplist_t} {es : List AEntry}
    (hr : Represents h self es) (k : Nat) (q : Ptr)
    (hq : q ∈ (on_level k es).map fun a => ⟨a.id, k⟩) :
    ∃ n, h.get q = some n ∧ q.off = k ∧ n.level = k ∧
      (∀ r, n.next = some r →
        r.off = k ∧ ∃ m, h.get r = some m ∧ m.level = k ∧ m.prev = some q) ∧
      (∀ r, n.prev = some r →
        r.off = k ∧ ∃ m, h.get r = some m ∧ m.level = k ∧ m.next = some q) := by
  simp only [List.mem_map] at hq
  obtain ⟨a, ha, hqa⟩ := hq
  subst hqa
  obtain ⟨xs, ys, hsplit⟩ := List.append_of_mem ha
  have hl := hr.linked k
  rw [hsplit] at hl
  refine ⟨_, Linked_split hl, rfl, rfl, ?_, ?_⟩
  · intro r hr1
    cases ys with
    | nil => simp [node_at] at hr1
    | cons b t =>
      simp [node_at] at hr1
      subst hr1
      have hl2 : Linked h k none ((xs ++ [a]) ++ b :: t) := by simpa using hl
      have hb := Linked_split hl2
      rw [prev_of_append_singleton] at hb
      exact ⟨rfl, _, hb, rfl, rfl⟩
  · intro r hr1
    rcases List.eq_nil_or_concat xs with hx | ⟨xs0, c, hx⟩
    · subst hx
      simp [node_at, prev_of] at hr1
    · rw [List.concat_eq_append] at hx
      subst hx
      rw [show (node_at k (prev_of k none (xs0 ++ [c])) a ys).prev = prev_of k none (xs0 ++ [c])
        from rfl, prev_of_append_singleton] at hr1
      simp at hr1
      subst hr1
      have hl2 : Linked h k none (xs0 ++ c :: (a :: ys)) := by simpa using hl
      exact ⟨rfl, _, Linked_split hl2, rfl, rfl⟩

/-- C11: after every finite run of `skiplist_insert` calls on a new list with
`1 <= max_num_levels`, started with the first-call flag set, for every level `k`
and every node `a` of the level-`k` chain: `a` is a level-`k` node; if `a.next`
exists it is a level-`k` node whose `prev` is `a`; if `a.prev` exists it is a
level-`k` node whose `next` is `a`. -/
theorem links_are_mutual_inverses (M : Nat) (p : Nat → Bool) (w0 : World) (vs : List Int)
    (hM1 : 1 ≤ M) (hM2 : M < 256) (hflag : w0.gen.first = true) :
    ∃ self w, insert_all vs (new_skiplist M p) w0 = .ok (self, w) ∧
      ∀ k, k < M → ∃ ps, level_ptrs w.heap self k = .ok ps ∧
        ∀ q ∈ ps, ∃ n, w.heap.get q = some n ∧ q.off = k ∧ n.level = k ∧
          (∀ r, n.next = some r →
            r.off = k ∧ ∃ m, w.heap.get r = some m ∧ m.level = k ∧ m.prev = some q) ∧
          (∀ r, n.prev = some r →
            r.off = k ∧ ∃ m, w.heap.get r = some m ∧ m.level = k ∧ m.next = some q) := by
  obtain ⟨self, w, r1, r2, r3⟩ := reachable_cases M p w0 vs hM1 hM2 hflag
  refine ⟨self, w, r1, fun k hk => ?_⟩
  rcases r3 with ⟨_, hnone, _⟩ | ⟨es, hg⟩
  · exact ⟨[], by simp [level_ptrs, hnone], by simp⟩
  · exact ⟨_, level_ptrs_spec hg.repr (by rw [r2]; exact hk),
      fun q hq => links_of_represents hg.repr k q hq⟩

theorem links_are_mutual_inverses_witness :
    (1 ≤ 4 ∧ 4 < 256 ∧ (fresh (fun n => 7 * n)).gen.first = true) ∧
    ∃ self w, insert_all [50, 10, 30] (new_skiplist 4 p_half) (fresh (fun n => 7 * n)) =
        .ok (self, w) ∧
      ∀ k, k < 4 → ∃ ps, level_ptrs w.heap self k = .ok ps ∧
        ∀ q ∈ ps, ∃ n, w.heap.get q = some n ∧ q.off = k ∧ n.level = k ∧
          (∀ r, n.next = some r →
            r.off = k ∧ ∃ m, w.heap.get r = some m ∧ m.level = k ∧ m.prev = some q) ∧
          (∀ r, n.prev = some r →
            r.off = k ∧ ∃ m, w.heap.get r = some m ∧ m.level = k ∧ m.next = some q) :=
  ⟨⟨by decide, by decide, rfl⟩,
    links_are_mutual_inverses 4 p_half (fresh (fun n => 7 * n)) [50, 10, 30]
      (by decide) (by decide) rfl⟩

/-- Nesting on a well-formed list: an Entry on the level-`k` chain is on every
lower chain, and an Entry of the level-0 chain whose `num_levels` is `L` is on
the level-`k` chain exactly for `k < L`. -/
theorem nesting_of_represents {h : Heap} {self : skiplist_t} {es : List AEntry}
    (hr : Represents h self es) :
    (∀ k, ∀ q ∈ (on_level k es).map (fun a => (⟨a.id, k⟩ : Ptr)), q.off = k ∧
      ∀ j, j ≤ k → (⟨q.entry, j⟩ : Ptr) ∈ (on_level j es).map (fun a => (⟨a.id, j⟩ : Ptr))) ∧
    (∀ q ∈ (on_level 0 es).map (fun a => (⟨a.id, 0⟩ : Ptr)), ∀ n, h.get q = some n →
      ∀ k, ((⟨q.entry, k⟩ : Ptr) ∈ (on_level k es).map (fun a => (⟨a.id, k⟩ : Ptr)) ↔
        k < n.num_levels)) := by
  constructor
  · intro k q hq
    simp only [List.mem_map] at hq
    obtain ⟨a, ha, hqa⟩ := hq
    subst hqa
    refine ⟨rfl, fun j hj => ?_⟩
    simp only [List.mem_map]
    have ha2 := List.mem_filter.1 ha
    refine ⟨a, List.mem_filter.2 ⟨ha2.1, ?_⟩, rfl⟩
    have : k < a.levels := by simpa using ha2.2
    simp
    omega
  · intro q hq n hn k
    simp only [List.mem_map] at hq
    obtain ⟨a, ha, hqa⟩ := hq
    subst hqa
    have ha2 := (List.mem_filter.1 ha).1
    obtain ⟨A, C, hsplit⟩ := List.append_of_mem ha2
    have hna := node_of_linked (hr.linked 0) hsplit (hr.levels_pos a ha2)
    rw [hna] at hn
    simp at hn
    have hnl : n.num_levels = a.levels := by rw [← hn]; rfl
    rw [hnl]
    simp only [List.mem_map]
    constructor
    · rintro ⟨b, hb, hbe⟩
      have hb2 := List.mem_filter.1 hb
      have hid : b.id = a.id := by injection hbe
      have hba : b = a := List.inj_on_of_nodup_map hr.nodup hb2.1 ha2 hid
      rw [← hba]
      simpa using hb2.2
    · intro hk
      exact ⟨a, List.mem_filter.2 ⟨ha2, by simpa using hk⟩, rfl⟩

/-- C12: after every finite run of `skiplist_insert` calls on a new list with
`1 <= max_num_levels`, started with the first-call flag set: every node on the
level-`k` chain belongs to an Entry whose level-`j` node is on the level-`j`
chain for every `j <= k`; and an Entry on the level-0 chain whose `num_levels`
is `L` is on the level-`k` chain exactly for the levels `k < L`. -/
theorem levels_are_nested (M : Nat) (p : Nat → Bool) (w0 : World) (vs : List Int)
    (hM1 : 1 ≤ M) (hM2 : M < 256) (hflag : w0.gen.first = true) :
    ∃ self w, insert_all vs (new_skiplist M p) w0 = .ok (self, w) ∧
      ∃ chains : Nat → List Ptr,
        (∀ k, k < M → level_ptrs w.heap self k = .ok (chains k)) ∧
        (∀ k, k < M → ∀ q ∈ chains k, q.off = k ∧
          ∀ j, j ≤ k → (⟨q.entry, j⟩ : Ptr) ∈ chains j) ∧
        (∀ q ∈ chains 0, ∀ n, w.heap.get q = some n →
          ∀ k, k < M → ((⟨q.entry, k⟩ : Ptr) ∈ chains k ↔ k < n.num_levels)) := by
  obtain ⟨self, w, r1, r2, r3⟩ := reachable_cases M p w0 vs hM1 hM2 hflag
  refine ⟨self, w, r1, ?_⟩
  rcases r3 with ⟨_, hnone, _⟩ | ⟨es, hg⟩
  · exact ⟨fun _ => [], fun k _ => by simp [level_ptrs, hnone], by simp, by simp⟩
  · obtain ⟨n1, n2⟩ := nesting_of_represents hg.repr
    exact ⟨fun k => (on_level k es).map fun a => ⟨a.id, k⟩,
      fun k hk => level_ptrs_spec hg.repr (by rw [r2]; exact hk),
      fun k _ q hq => n1 k q hq, fun q hq n hn k _ => n2 q hq n hn k⟩

theorem levels_are_nested_witness :
    (1 ≤ 4 ∧ 4 < 256 ∧ (fresh (fun n => 7 * n)).gen.first = true) ∧
    ∃ self w, insert_all [50, 10, 30] (new_skiplist 4 p_half) (fresh (fun n => 7 * n)) =
        .ok (self, w) ∧
      ∃ chains : Nat → List Ptr,
        (∀ k, k < 4 → level_ptrs w.heap self k = .ok (chains k)) ∧
        (∀ k, k < 4 → ∀ q ∈ chains k, q.off = k ∧
          ∀ j, j ≤ k → (⟨q.entry, j⟩ : Ptr) ∈ chains j) ∧
        (∀ q ∈ chains 0, ∀ n, w.heap.get q = some n →
          ∀ k, k < 4 → ((⟨q.entry, k⟩ : Ptr) ∈ chains k ↔ k < n.num_levels)) :=
  ⟨⟨by decide, by decide, rfl⟩,
    levels_are_nested 4 p_half (fresh (fun n => 7 * n)) [50, 10, 30]
      (by decide) (by decide) rfl⟩

/-- The level-0 chain of a reachable list reads the inserted values, each
once. -/
theorem level_zero_values_of_good {M : Nat} {vs : List Int} {self : skiplist_t} {w : World}
    {es : List AEntry} (hg : Good M vs self w es) (hM1 : 1 ≤ M) :
    level_values w.heap self 0 = .ok (es.map (·.value)) := by
  have := level_values_spec hg.repr (k := 0) (by rw [hg.max_eq]; omega)
  rw [on_level_zero es hg.repr.levels_pos] at this
  exact this

/-- C13: `skiplist_insert` neither deduplicates nor loses an element: after `n`
insertions (repeats allowed) into a new list with `1 <= max_num_levels`, started
with the first-call flag set, the level-0 chain from the head has `n` Entries
and its values are a permutation of the inserted sequence. -/
theorem insert_keeps_every_value (M : Nat) (p : Nat → Bool) (w0 : World) (vs : List Int)
    (hM1 : 1 ≤ M) (hM2 : M < 256) (hflag : w0.gen.first = true) :
    ∃ l, observe (insert_all vs (new_skiplist M p) w0) (fun h s => level_values h s 0) = .ok l ∧
      l.length = vs.length ∧ l.Perm vs := by
  obtain ⟨self, w, r1, r2, r3⟩ := reachable_cases M p w0 vs hM1 hM2 hflag
  rw [r1]
  rcases r3 with ⟨hnil, hnone, _⟩ | ⟨es, hg⟩
  · subst hnil
    exact ⟨[], by simp [observe, level_values, hnone], rfl, List.Perm.refl _⟩
  · have hp : (es.map (·.value)).Perm vs := hg.values.trans (List.reverse_perm vs)
    exact ⟨_, level_zero_values_of_good hg hM1, hp.length_eq, hp⟩

theorem insert_keeps_every_value_witness :
    (1 ≤ 4 ∧ 4 < 256 ∧ (fresh (fun n => 7 * n)).gen.first = true) ∧
    ∃ l, observe (insert_all [5, 5, 3] (new_skiplist 4 p_half) (fresh (fun n => 7 * n)))
        (fun h s => level_values h s 0) = .ok l ∧
      l.length = [5, 5, (3 : Int)].length ∧ l.Perm [5, 5, 3] :=
  ⟨⟨by decide, by decide, rfl⟩,
    insert_keeps_every_value 4 p_half (fresh (fun n => 7 * n)) [5, 5, 3]
      (by decide) (by decide) rfl⟩

/-- From two levels on, every level of a reachable list reads a sublist of the
non-decreasing level-0 values. -/
theorem level_values_of_good {M : Nat} {vs : List Int} {self : skiplist_t} {w : World}
    {es : List AEntry} (hg : Good M vs self w es) (hM : 2 ≤ M) {k : Nat} (hk : k < M) :
    ∃ lk, level_values w.heap self k = .ok lk ∧ lk.Sublist (es.map (·.value)) ∧
      (es.map (·.value)).Sorted (· ≤ ·) := by
  refine ⟨_, level_values_spec hg.repr (by rw [hg.max_eq]; exact hk), ?_, ?_⟩
  · exact (List.filter_sublist es).map _
  · exact List.pairwise_map.2 (hg.sorted hM)

/-- C19: for `2 <= max_num_levels`, after every finite run of `skiplist_insert`
calls on a new list, started with the first-call flag set: the level-0 chain
reads the inserted values in non-decreasing order, and the values along every
level's chain are non-decreasing. -/
theorem chains_are_sorted (M : Nat) (p : Nat → Bool) (w0 : World) (vs : List Int)
    (hM1 : 2 ≤ M) (hM2 : M < 256) (hflag : w0.gen.first = true) :
    ∃ self w, insert_all vs (new_skiplist M p) w0 = .ok (self, w) ∧
      (∃ l, level_values w.heap self 0 = .ok l ∧ l.Perm vs ∧ l.Sorted (· ≤ ·)) ∧
      ∀ k, k < M → ∃ lk, level_values w.heap self k = .ok lk ∧ lk.Sorted (· ≤ ·) := by
  obtain ⟨self, w, r1, r2, r3⟩ := reachable_cases M p w0 vs (by omega) hM2 hflag
  refine ⟨self, w, r1, ?_⟩
  rcases r3 with ⟨hnil, hnone, _⟩ | ⟨es, hg⟩
  · subst hnil
    exact ⟨⟨[], by simp [level_values, hnone], List.Perm.refl _, List.sorted_nil⟩,
      fun k _ => ⟨[], by simp [level_values, hnone], List.sorted_nil⟩⟩
  · refine ⟨⟨_, level_zero_values_of_good hg (by omega),
      hg.values.trans (List.reverse_perm vs), List.pairwise_map.2 (hg.sorted hM1)⟩, ?_⟩
    intro k hk
    obtain ⟨lk, l1, l2, l3⟩ := level_values_of_good hg hM1 hk
    exact ⟨lk, l1, l3.sublist l2⟩

theorem chains_are_sorted_witness :
    (2 ≤ 4 ∧ 4 < 256 ∧ (fresh (fun n => 7 * n)).gen.first = true) ∧
    ∃ self w, insert_all [50, 10, 30] (new_skiplist 4 p_half) (fresh (fun n => 7 * n)) =
        .ok (self, w) ∧
      (∃ l, level_values w.heap self 0 = .ok l ∧ l.Perm [50, 10, 30] ∧ l.Sorted (· ≤ ·)) ∧
      ∀ k, k < 4 → ∃ lk, level_values w.heap self k = .ok lk ∧ lk.Sorted (· ≤ ·) :=
  ⟨⟨by decide, by decide, rfl⟩,
    chains_are_sorted 4 p_half (fresh (fun n => 7 * n)) [50, 10, 30]
      (by decide) (by decide) rfl⟩

/-- C14 (as amended): for `2 <= max_num_levels`, after every finite run of
`skiplist_insert` calls on a new list, started with the first-call flag set, the
values along every level's chain are non-decreasing, and strictly increasing
when the inserted values are pairwise distinct. -/
theorem chains_strict_when_distinct (M : Nat) (p : Nat → Bool) (w0 : World) (vs : List Int)
    (hM1 : 2 ≤ M) (hM2 : M < 256) (hflag : w0.gen.first = true) :
    ∃ self w, insert_all vs (new_skiplist M p) w0 = .ok (self, w) ∧
      ∀ k, k < M → ∃ lk, level_values w.heap self k = .ok lk ∧ lk.Chain' (· ≤ ·) ∧
        (vs.Nodup → lk.Chain' (· < ·)) := by
  obtain ⟨self, w, r1, r2, r3⟩ := reachable_cases M p w0 vs (by omega) hM2 hflag
  refine ⟨self, w, r1, fun k hk => ?_⟩
  rcases r3 with ⟨hnil, hnone, _⟩ | ⟨es, hg⟩
  · exact ⟨[], by simp [level_values, hnone], List.chain'_nil, fun _ => List.chain'_nil⟩
  · obtain ⟨lk, l1, l2, l3⟩ := level_values_of_good hg hM1 hk
    refine ⟨lk, l1, (l3.sublist l2).chain', fun hnd => ?_⟩
    have hnd2 : (es.map (·.value)).Nodup :=
      (hg.values.trans (List.reverse_perm vs)).nodup_iff.2 hnd
    have hlt : (es.map (·.value)).Pairwise (· < ·) :=
      (List.Pairwise.and l3 hnd2).imp (fun hab => lt_of_le_of_ne hab.1 hab.2)
    exact List.Pairwise.chain' (hlt.sublist l2)

theorem chains_strict_when_distinct_witness :
    (2 ≤ 4 ∧ 4 < 256 ∧ (fresh (fun n => 7 * n)).gen.first = true) ∧
    ∃ self w, insert_all [50, 10, 30] (new_skiplist 4 p_half) (fresh (fun n => 7 * n)) =
        .ok (self, w) ∧
      ∀ k, k < 4 → ∃ lk, level_values w.heap self k = .ok lk ∧ lk.Chain' (· ≤ ·) ∧
        (([50, 10, 30] : List Int).Nodup → lk.Chain' (· < ·)) :=
  ⟨⟨by decide, by decide, rfl⟩,
    chains_strict_when_distinct 4 p_half (fresh (fun n => 7 * n)) [50, 10, 30]
      (by decide) (by decide) rfl⟩

/-- C14 (counterexample): in a fresh process, after inserting 5 twice into
`new_skiplist(4, 0.5)`, the level-0 chain reads 5, 5: the first node has a next
of equal value, so the values do not strictly increase. -/
theorem duplicate_values_are_adjacent :
    observe (insert_all [5, 5] (new_skiplist 4 p_half) (fresh (fun _ => 99)))
      (fun h s => level_values h s 0) = .ok [5, 5] := by
  decide

/-- C20: for `2 <= max_num_levels`, after every non-empty run of
`skiplist_insert` calls on a new list, started with the first-call flag set, and
for every `v` not below the head's value (the current minimum):
`skiplist_contains(list, v)` returns true exactly when `v` is among the inserted
values, whatever levels were drawn. -/
theorem contains_iff_inserted (M : Nat) (p : Nat → Bool) (w0 : World) (vs : List Int)
    (v : Int) (hM1 : 2 ≤ M) (hM2 : M < 256) (hflag : w0.gen.first = true) (hne : vs ≠ []) :
    ∃ self w n, insert_all vs (new_skiplist M p) w0 = .ok (self, w) ∧
      head_node w.heap self = .ok n ∧ (∀ x ∈ vs, n.value ≤ x) ∧
      (n.value ≤ v → skiplist_contains w.heap self v = .ok (decide (v ∈ vs))) := by
  obtain ⟨self, w, es, r1, hg⟩ := reachable_good M p w0 vs (by omega) hM2 hflag hne
  obtain ⟨n, n1, _, _, n4⟩ := head_node_of_good hg
  refine ⟨self, w, n, r1, n1, fun x hx => n4 x (by simpa using hx), fun hv => ?_⟩
  obtain ⟨a0, rest, hes⟩ := List.exists_cons_of_ne_nil hg.repr.nonempty
  subst hes
  have hhd : self.head = some ⟨a0.id, 0⟩ := by simpa using hg.repr.head_eq
  have hn0 := node_of_linked (A := []) (hg.repr.linked 0) rfl (hg.repr.levels_pos a0 (by simp))
  have hnv : n.value = a0.value := by
    simp only [head_node, hhd, load_eq_ok hn0] at n1
    injection n1 with n1
    rw [← n1]; rfl
  obtain ⟨A, b, C, c1, c2, c3, _, c5⟩ := contains_spec hg.repr v (by rw [← hnv]; exact hv)
  have hiff := found_iff_mem (hg.sorted hM1) c1 c2 (c3 (by rw [hg.max_eq]; exact hM1))
  have hmem : v ∈ (a0 :: rest).map (·.value) ↔ v ∈ vs := by
    rw [(hg.values.trans (List.reverse_perm vs)).mem_iff]
  rw [c5]
  congr 1
  rw [decide_eq_decide, hiff, hmem]

theorem contains_iff_inserted_witness :
    (2 ≤ 4 ∧ 4 < 256 ∧ (fresh (fun n => 7 * n)).gen.first = true ∧
      [50, 10, 30] ≠ ([] : List Int)) ∧
    ∃ self w n, insert_all [50, 10, 30] (new_skiplist 4 p_half) (fresh (fun n => 7 * n)) =
        .ok (self, w) ∧
      head_node w.heap self = .ok n ∧ (∀ x ∈ [50, 10, 30], n.value ≤ x) ∧
      (n.value ≤ 20 → skiplist_contains w.heap self 20 = .ok (decide ((20 : Int) ∈ [50, 10, 30]))) :=
  ⟨⟨by decide, by decide, rfl, by decide⟩,
    contains_iff_inserted 4 p_half (fresh (fun n => 7 * n)) [50, 10, 30] 20
      (by decide) (by decide) rfl (by decide)⟩

/-! ## The level generator as a truncated geometric draw -/

theorem leading_successes_of_fail (p : Nat → Bool) (n : Nat) (rand : Nat → Nat)
    (hp : p (rand 0 % 100) = false) : leading_successes p n rand = 0 := by
  cases n with
  | zero => rfl
  | succ m => simp [leading_successes, hp]

theorem level_loop_counts (max_num_levels : Nat) (p : Nat → Bool) :
    ∀ (fuel level : Nat) (rand : Nat → Nat) (n : Nat), level ≤ max_num_levels →
      max_num_levels < level + fuel → max_num_levels ≤ level + n →
      (level_loop max_num_levels p fuel level rand).1 =
        min (level + leading_successes p n rand) max_num_levels := by
  intro fuel
  induction fuel with
  | zero => intro level rand n h1 h2 _; omega
  | succ f ih =>
    intro level rand n h1 h2 h3
    unfold level_loop
    by_cases hp : p (rand 0 % 100) = true
    · by_cases hl : level < max_num_levels
      · simp only [hp, hl, decide_True, Bool.and_self, if_true]
        cases n with
        | zero => omega
        | succ m =>
          rw [ih (level + 1) _ m (by omega) (by omega) (by omega)]
          simp only [leading_successes, hp, if_true]
          congr 1
          omega
      · simp only [hl, decide_False, Bool.and_false]
        have : level = max_num_levels := by omega
        simp
        omega
    · have hp2 : p (rand 0 % 100) = false := by simpa using hp
      simp only [hp2, Bool.false_and]
      rw [leading_successes_of_fail p n rand hp2]
      simp
      exact h1

/-- C15: for `max_num_levels >= 1`, the first call of
`generate_level_for_new_node` in the process returns `max_num_levels`, consumes
no draw and clears the flag; every later call returns
`min(1 + s, max_num_levels)`, where `s` is the number of consecutive successful
trials at the front of the random stream (counted among any `n` draws with
`max_num_levels <= n + 1`, which is all the minimum can depend on). -/
theorem generate_level_is_truncated_geometric (max_num_levels : Nat) (p : Nat → Bool)
    (g : gen_state) (hmax : 1 ≤ max_num_levels) :
    (g.first = true →
      (generate_level_for_new_node max_num_levels p g).1 = max_num_levels ∧
      (generate_level_for_new_node max_num_levels p g).2.rand = g.rand ∧
      (generate_level_for_new_node max_num_levels p g).2.first = false) ∧
    (g.first = false → ∀ n, max_num_levels ≤ n + 1 →
      (generate_level_for_new_node max_num_levels p g).1 =
          min (1 + leading_successes p n g.rand) max_num_levels ∧
      (generate_level_for_new_node max_num_levels p g).2.first = false) := by
  constructor
  · intro hf
    simp [generate_level_for_new_node, hf]
  · intro hf n hn
    simp only [generate_level_for_new_node, hf, Bool.false_eq_true, if_false]
    exact ⟨level_loop_counts max_num_levels p _ 1 g.rand n hmax (by omega) (by omega), trivial⟩

theorem generate_level_is_truncated_geometric_witness :
    1 ≤ 4 ∧
    (((⟨false, fun n => 37 * n⟩ : gen_state).first = true →
      (generate_level_for_new_node 4 p_half ⟨false, fun n => 37 * n⟩).1 = 4 ∧
      (generate_level_for_new_node 4 p_half ⟨false, fun n => 37 * n⟩).2.rand =
        (⟨false, fun n => 37 * n⟩ : gen_state).rand ∧
      (generate_level_for_new_node 4 p_half ⟨false, fun n => 37 * n⟩).2.first = false) ∧
    ((⟨false, fun n => 37 * n⟩ : gen_state).first = false → ∀ n, 4 ≤ n + 1 →
      (generate_level_for_new_node 4 p_half ⟨false, fun n => 37 * n⟩).1 =
          min (1 + leading_successes p_half n (⟨false, fun n => 37 * n⟩ : gen_state).rand) 4 ∧
      (generate_level_for_new_node 4 p_half ⟨false, fun n => 37 * n⟩).2.first = false)) :=
  ⟨by decide, generate_level_is_truncated_geometric 4 p_half ⟨false, fun n => 37 * n⟩ (by decide)⟩

/-! ## Termination and the precondition of the search -/

/-- On a well-formed list, `skiplist_insert` reaches its call of the
predecessor search with a start node that exists and whose value does not
exceed the value searched, and the search returns. -/
theorem search_precondition_of_represents {h : Heap} {self : skiplist_t} {a0 : AEntry}
    {rest : List AEntry} (hr : Represents h self (a0 :: rest)) (v : Int) (L : Nat)
    (hL : 1 ≤ L) :
    ∃ h1 v1 top n,
      displace_head (h ++ [init_nodes L v]) ⟨a0.id, 0⟩ ⟨h.length, 0⟩ v = .ok (h1, v1) ∧
      top_of h1 ⟨a0.id, 0⟩ = .ok top ∧ load h1 top = .ok n ∧ n.value ≤ v1 ∧
      ∃ r, _skiplist_find_headnode_predecessor h1 top v1 = .ok r := by
  have hidlt : ∀ a ∈ a0 :: rest, a.id < h.length := by
    intro a ha
    obtain ⟨A, C, hsplit⟩ := List.append_of_mem ha
    exact get_lt_length (node_of_linked (hr.linked 0) hsplit (hr.levels_pos a ha))
  have hl0 : ∀ k, Linked (h ++ [init_nodes L v]) k none (on_level k (a0 :: rest)) := by
    intro k
    refine Linked_frame (fun a ha => ?_) (hr.linked k)
    exact get_append_old h _ _ (hidlt a (List.mem_filter.1 ha).1)
  have hfresh : ∀ a ∈ a0 :: rest, a.id ≠ h.length := fun a ha => by
    have := hidlt a ha; omega
  have hnew : ∀ k, k < L →
      (h ++ [init_nodes L v]).get ⟨h.length, k⟩ = some ⟨none, none, k, L, v⟩ := by
    intro k hk
    rw [get_append_new, init_nodes_get L v k hk]
  obtain ⟨h1, a1, v1, d1, d2, d3, d4, d5, _, d7, _⟩ :=
    displace_head_spec hl0 hr.nodup hfresh (hr.levels_pos a0 (by simp)) hL hnew
  have hpos1 : ∀ a ∈ a1 :: rest, 1 ≤ a.levels := by
    intro a ha
    simp at ha
    rcases ha with ha | ha
    · rw [ha, d4]; exact hr.levels_pos a0 (by simp)
    · exact hr.levels_pos a (by simp [ha])
  have hle1 : ∀ a ∈ a1 :: rest, a.levels ≤ self.max_num_levels := by
    intro a ha
    simp at ha
    rcases ha with ha | ha
    · rw [ha, d4]; exact hr.levels_le a0 (by simp)
    · exact hr.levels_le a (by simp [ha])
  have hsz1 : (a1 :: rest).length + self.max_num_levels ≤ h1.size + 1 := by
    have := hr.size_le
    rw [d2, size_append]
    simp at this ⊢
    omega
  have htop := top_of_head (d7 0) rfl (hpos1 a1 (by simp))
  obtain ⟨A, b, C, _, f2, _, _⟩ := find_pred_spec (v := v1) d7 hpos1 hle1 hsz1 rfl d5
  have hn := node_of_linked (A := []) (d7 (a1.levels - 1)) rfl
    (by have := hpos1 a1 (by simp); omega)
  rw [d3] at htop f2 hn
  exact ⟨h1, v1, _, _, d1, htop, load_eq_ok hn, d5, _, f2⟩

/-- Insertion into a well-formed list up to the splice loop, for a new Entry of
any positive level count: the head takes the smaller value, the search returns
an Entry `P` of the list, and the loop starts in a `Splicing` state at level 0
with `prev_node` on `P`. -/
theorem insert_prepare_any {h : Heap} {self : skiplist_t} {a0 : AEntry} {rest : List AEntry}
    (hr : Represents h self (a0 :: rest)) (v : Int) (L : Nat) (hL1 : 1 ≤ L) :
    ∃ h1 v1 A P C,
      displace_head (h ++ [init_nodes L v]) ⟨a0.id, 0⟩ ⟨h.length, 0⟩ v = .ok (h1, v1) ∧
      top_of h1 ⟨a0.id, 0⟩ = .ok ⟨a0.id, a0.levels - 1⟩ ∧
      _skiplist_find_headnode_predecessor h1 ⟨a0.id, a0.levels - 1⟩ v1 = .ok ⟨P.id, 0⟩ ∧
      (A ++ P :: C).map (fun a => (a.id, a.levels)) =
        (a0 :: rest).map (fun a => (a.id, a.levels)) ∧
      ((A ++ P :: ⟨h.length, L, v1⟩ :: C).map (·.id)).Nodup ∧
      (∀ a ∈ A ++ P :: C, 1 ≤ a.levels) ∧
      (∃ x ∈ A ++ [P], x.levels = self.max_num_levels) ∧
      Splicing h1 A P ⟨h.length, L, v1⟩ C 0 P := by
  have hM : a0.levels = self.max_num_levels := hr.head_levels a0 rfl
  have hidlt : ∀ a ∈ a0 :: rest, a.id < h.length := by
    intro a ha
    obtain ⟨A, C, hsplit⟩ := List.append_of_mem ha
    exact get_lt_length (node_of_linked (hr.linked 0) hsplit (hr.levels_pos a ha))
  have hl0 : ∀ k, Linked (h ++ [init_nodes L v]) k none (on_level k (a0 :: rest)) := by
    intro k
    refine Linked_frame (fun a ha => ?_) (hr.linked k)
    exact get_append_old h _ _ (hidlt a (List.mem_filter.1 ha).1)
  have hfresh : ∀ a ∈ a0 :: rest, a.id ≠ h.length := fun a ha => by
    have := hidlt a ha; omega
  have hnew : ∀ k, k < L →
      (h ++ [init_nodes L v]).get ⟨h.length, k⟩ = some ⟨none, none, k, L, v⟩ := by
    intro k hk
    rw [get_append_new, init_nodes_get L v k hk]
  obtain ⟨h1, a1, v1, d1, d2, d3, d4, d5, _, d7, d8⟩ :=
    displace_head_spec hl0 hr.nodup hfresh (hr.levels_pos a0 (by simp)) hL1 hnew
  have hpos1 : ∀ a ∈ a1 :: rest, 1 ≤ a.levels := by
    intro a ha
    simp at ha
    rcases ha with ha | ha
    · rw [ha, d4]; exact hr.levels_pos a0 (by simp)
    · exact hr.levels_pos a (by simp [ha])
  have hle1 : ∀ a ∈ a1 :: rest, a.levels ≤ self.max_num_levels := by
    intro a ha
    simp at ha
    rcases ha with ha | ha
    · rw [ha, d4]; exact hr.levels_le a0 (by simp)
    · exact hr.levels_le a (by simp [ha])
  have hsz1 : (a1 :: rest).length + self.max_num_levels ≤ h1.size + 1 := by
    have := hr.size_le
    rw [d2, size_append]
    simp at this ⊢
    omega
  have htop := top_of_head (d7 0) rfl (hpos1 a1 (by simp))
  obtain ⟨A, b, C, f1, f2, _, _⟩ := find_pred_spec (v := v1) d7 hpos1 hle1 hsz1 rfl d5
  rw [d3, d4] at htop f2
  have hids : (a1 :: rest).map (·.id) = (a0 :: rest).map (·.id) := by simp [d3]
  have hnd1 : ((A ++ b :: ⟨h.length, L, v1⟩ :: C).map (·.id)).Nodup := by
    have hp : (A ++ b :: ⟨h.length, L, v1⟩ :: C).Perm (⟨h.length, L, v1⟩ :: (A ++ b :: C)) := by
      have := @List.perm_middle _ (⟨h.length, L, v1⟩ : AEntry) (A ++ [b]) C
      simpa using this
    rw [(hp.map _).nodup_iff, ← f1, List.map_cons, hids, List.nodup_cons]
    refine ⟨?_, hr.nodup⟩
    simp only [List.mem_map, not_exists, not_and]
    intro x hx
    exact hfresh x hx
  refine ⟨h1, v1, A, b, C, d1, htop, f2, ?_, hnd1, by rw [← f1]; exact hpos1,
    ⟨a1, head_mem_of_cons_eq f1, by omega⟩, ?_⟩
  · rw [← f1]; simp [d3, d4]
  · refine ⟨fun k => ?_, fun k _ hk => d8 k hk, ⟨A, [], rfl, by simp, Nat.zero_le _⟩, ?_⟩
    · rw [if_neg (Nat.not_lt_zero k), ← f1]; exact d7 k
    · rw [← f1]; omega

/-- The body of `skiplist_insert` reads the handle only through `head`: on a
non-empty list its outcome does not depend on `max_num_levels` or `p`. -/
theorem insert_with_level_congr (s1 s2 : skiplist_t) (head : Ptr) (h1 : s1.head = some head)
    (h2 : s2.head = some head) (v : Int) (L : Nat) (h : Heap) :
    insert_with_level s2 v L h =
      match insert_with_level s1 v L h with
      | .error e => .error e
      | .ok (_, h1) => .ok (s2, h1) := by
  unfold insert_with_level
  rw [h1, h2]
  simp only
  cases displace_head (h ++ [init_nodes L v]) head ⟨h.length, 0⟩ v with
  | error e => rfl
  | ok r1 =>
    obtain ⟨h1, v1⟩ := r1
    simp only
    cases top_of h1 head with
    | error e => rfl
    | ok top =>
      simp only
      cases _skiplist_find_headnode_predecessor h1 top v1 with
      | error e => rfl
      | ok pn =>
        simp only
        cases splice_loop ⟨h.length, 0⟩ L 0 h1 pn with
        | error e => rfl
        | ok h2 => rfl

/-- The backward walk over Entries that all have at most `i` levels runs off the
front of the list: it reads the `prev` of the first Entry, which is NULL. -/
theorem walk_back_null {h : Heap} {i : Nat} :
    ∀ (fuel : Nat) (A1 : List AEntry) (Q : AEntry) (R : List AEntry),
      Linked h 0 none (A1 ++ Q :: R) → (∀ x ∈ A1 ++ [Q], x.levels ≤ i) → A1.length < fuel →
      walk_back h i fuel ⟨Q.id, 0⟩ = .error .null_deref := by
  intro fuel
  induction fuel with
  | zero => intro A1 Q R _ _ hf; omega
  | succ f ih =>
    intro A1 Q R hl hx hf
    have hn := Linked_split hl
    rw [walk_back, load_eq_ok hn]
    have hq1 : Q.levels ≤ i := hx Q (by simp)
    rcases List.eq_nil_or_concat A1 with hA | ⟨A0, q0, hA⟩
    · subst hA
      simp [node_at, hq1, prev_of]
    · rw [List.concat_eq_append] at hA
      subst hA
      have hl2 : Linked h 0 none (A0 ++ q0 :: (Q :: R)) := by simpa using hl
      have hx2 : ∀ x ∈ A0 ++ [q0], x.levels ≤ i := by
        intro x hx1
        exact hx x (by simp at hx1 ⊢; tauto)
      have := ih A0 q0 (Q :: R) hl2 hx2 (by simp at hf; omega)
      simp [node_at, hq1, prev_of_append_singleton, this]

/-- One iteration of the splice loop at a level `i` that no Entry at or before
the predecessor exceeds: the backward walk passes the head and dereferences its
NULL `prev`. -/
theorem splice_level_null {h : Heap} {A C : List AEntry} {P nw Q : AEntry} {i : Nat}
    (hpos : ∀ a ∈ A ++ P :: C, 1 ≤ a.levels)
    (hmax : ∀ x ∈ A ++ [P], x.levels ≤ i)
    (inv : Splicing h A P nw C i Q) (hi : i < nw.levels) :
    splice_level h ⟨nw.id, 0⟩ ⟨Q.id, 0⟩ i = .error .null_deref := by
  obtain ⟨A1, B, hsplit, hB, hQ⟩ := inv.cursor
  have hes : A ++ P :: C = A1 ++ Q :: (B ++ C) := by
    have : A ++ P :: C = (A ++ [P]) ++ C := by simp
    rw [this, hsplit]; simp
  have hes1 : A ++ P :: nw :: C = A1 ++ Q :: (B ++ nw :: C) := by
    have : A ++ P :: nw :: C = (A ++ [P]) ++ nw :: C := by simp
    rw [this, hsplit]; simp
  have hpos1 : ∀ a ∈ A ++ P :: nw :: C, 1 ≤ a.levels := by
    intro a ha
    simp at ha
    rcases ha with ha | ha | ha | ha
    · exact hpos a (by simp [ha])
    · exact hpos a (by simp [ha])
    · subst ha; omega
    · exact hpos a (by simp [ha])
  have hl0 : ∃ R, Linked h 0 none (A1 ++ Q :: R) := by
    have := inv.linked 0
    by_cases h0 : 0 < i
    · rw [if_pos h0, on_level_zero _ hpos1, hes1] at this
      exact ⟨_, this⟩
    · rw [if_neg h0, on_level_zero _ hpos, hes] at this
      exact ⟨_, this⟩
  obtain ⟨R, hl0⟩ := hl0
  have hnQ := Linked_split hl0
  have hall : ∀ x ∈ A1 ++ [Q], x.levels ≤ i := by
    intro x hx
    refine hmax x ?_
    rw [hsplit]
    simp at hx ⊢
    tauto
  have hiQ : i = Q.levels := by
    have := hall Q (by simp)
    omega
  have hfuel : A1.length < h.fuel := by
    have := inv.size_le
    rw [hes] at this
    simp at this
    unfold Heap.fuel
    omega
  have hw := walk_back_null h.fuel A1 Q R hl0 hall hfuel
  unfold splice_level
  rw [load_eq_ok hnQ]
  simp only [node_at, if_pos hiQ, hw]

/-- The splice loop for a new Entry with more levels than any Entry at or before
the predecessor: the levels below `L0` are threaded, and at level `L0` the
backward walk dereferences the NULL `prev` of the head. -/
theorem splice_loop_null {A C : List AEntry} {P nw : AEntry} {L0 : Nat}
    (hnd : ((A ++ P :: nw :: C).map (·.id)).Nodup)
    (hpos : ∀ a ∈ A ++ P :: C, 1 ≤ a.levels)
    (hmax : ∀ x ∈ A ++ [P], x.levels ≤ L0)
    (hhead : ∃ x ∈ A ++ [P], x.levels = L0)
    (hnw : L0 < nw.levels) :
    ∀ (count i : Nat) (h : Heap) (Q : AEntry), Splicing h A P nw C i Q →
      i ≤ L0 → i + count = nw.levels →
      splice_loop ⟨nw.id, 0⟩ count i h ⟨Q.id, 0⟩ = .error .null_deref := by
  intro count
  induction count with
  | zero => intro i h Q _ h1 h2; omega
  | succ c ih =>
    intro i h Q inv h1 h2
    by_cases hiL : i = L0
    · subst hiL
      rw [splice_loop, splice_level_null hpos hmax inv hnw]
    · obtain ⟨x, hx1, hx2⟩ := hhead
      obtain ⟨h1, Q1, _, _, s1, _, _, _, s5, _⟩ :=
        splice_level_cursor_at hnd hpos ⟨x, hx1, by omega⟩ inv (by omega)
      rw [splice_loop, s1]
      exact ih (i + 1) h1 Q1 s5 (by omega) (by omega)

/-- Inserting an Entry with more levels than the head has: the insertion faults
in the splice loop, at the level just above the head's top, on the NULL `prev`
of the head. -/
theorem insert_with_level_overflow {h : Heap} {self : skiplist_t} {es : List AEntry}
    (hr : Represents h self es) (v : Int) (L : Nat) (hL : self.max_num_levels < L) :
    insert_with_level self v L h = .error .null_deref := by
  obtain ⟨a0, rest, hes⟩ := List.exists_cons_of_ne_nil hr.nonempty
  subst hes
  have hhd : self.head = some ⟨a0.id, 0⟩ := by simpa using hr.head_eq
  obtain ⟨h1, v1, A, P, C, p1, p2, p3, p4, p5, p6, p7, p8⟩ :=
    insert_prepare_any hr v L (by omega)
  have hmax : ∀ x ∈ A ++ [P], x.levels ≤ self.max_num_levels := by
    intro x hx
    have hx2 : x ∈ A ++ P :: C := by simp at hx ⊢; tauto
    have hm : (x.id, x.levels) ∈ (a0 :: rest).map (fun a => (a.id, a.levels)) := by
      rw [← p4]; exact List.mem_map.2 ⟨x, hx2, rfl⟩
    obtain ⟨a, ha, hae⟩ := List.mem_map.1 hm
    simp only [Prod.mk.injEq] at hae
    have := hr.levels_le a ha
    omega
  have hs := @splice_loop_null A C P ⟨h.length, L, v1⟩ self.max_num_levels p5 p6 hmax p7 hL
    L 0 h1 P p8 (Nat.zero_le _) (by simp)
  simp only [insert_with_level, hhd, p1, p2, p3, hs]

/-! ## Programs over several lists, in any state of the process -/

/-- Every Entry of a represented list is an allocation of the heap. -/
theorem ids_lt_of_represents {h : Heap} {sl : skiplist_t} {es : List AEntry}
    (hr : Represents h sl es) : ∀ a ∈ es, a.id < h.length := by
  intro a ha
  obtain ⟨A, C, hsplit⟩ := List.append_of_mem ha
  exact get_lt_length (node_of_linked (hr.linked 0) hsplit (hr.levels_pos a ha))

/-- A represented list stays represented when the heap changes only outside
its Entries and does not shrink. -/
theorem represents_frame {h h1 : Heap} {sl : skiplist_t} {es : List AEntry}
    (hr : Represents h sl es)
    (hf : ∀ a ∈ es, ∀ k, h1.get ⟨a.id, k⟩ = h.get ⟨a.id, k⟩) (hs : h.size ≤ h1.size) :
    Represents h1 sl es :=
  ⟨hr.head_eq, hr.nonempty, hr.head_levels, hr.nodup, hr.levels_pos, hr.levels_le,
    fun k => Linked_frame (fun a ha => hf a (List.mem_filter.1 ha).1 k) (hr.linked k),
    le_trans hr.size_le (by omega)⟩

theorem settled_frame {h h1 : Heap} {sl : skiplist_t} {es : List AEntry}
    (hr : Settled h sl es)
    (hf : ∀ a ∈ es, ∀ k, h1.get ⟨a.id, k⟩ = h.get ⟨a.id, k⟩) (hs : h.size ≤ h1.size) :
    Settled h1 sl es := by
  obtain ⟨h1M, h2M, hc⟩ := hr
  refine ⟨h1M, h2M, ?_⟩
  rcases hc with hc | ⟨L0, hc⟩
  · exact Or.inl hc
  · exact Or.inr ⟨L0, represents_frame hc hf hs⟩

/-- The first `skiplist_insert` into a new list, in any state of the level
generator: it appends one allocation, of the drawn number `L0` of levels, and
makes it the head. -/
theorem first_insert_frame (self : skiplist_t) (v : Int) (w : World)
    (hempty : self.head = none) (hM1 : 1 ≤ self.max_num_levels)
    (hM2 : self.max_num_levels < 256) :
    ∃ L0 g1, skiplist_insert self v w =
        .ok ({ self with head := some ⟨w.heap.length, 0⟩ }, ⟨w.heap ++ [init_nodes L0 v], g1⟩) ∧
      Represents (w.heap ++ [init_nodes L0 v])
        { self with head := some ⟨w.heap.length, 0⟩, max_num_levels := L0 }
        [⟨w.heap.length, L0, v⟩] := by
  have hrange := generate_level_bounds self.max_num_levels self.p w.gen hM1
  unfold skiplist_insert
  generalize generate_level_for_new_node self.max_num_levels self.p w.gen = r at hrange ⊢
  obtain ⟨L, g1⟩ := r
  simp only at hrange ⊢
  have hmod : L % 256 = L := Nat.mod_eq_of_lt (by omega)
  rw [hmod]
  obtain ⟨_, i2⟩ := @insert_empty_spec w.heap { self with max_num_levels := L } v hempty hrange.1
  exact ⟨L, g1, by simp [insert_with_level, hempty], i2⟩

/-- One `skiplist_insert` on a list whose head has `L0` levels, whatever the
handle's `max_num_levels`. When the drawn level is at most `L0` the insertion
succeeds, the list stays well formed around that head, and no node of another
list is written. When it is larger, which needs `L0 < max_num_levels`, the
insertion stops on the NULL `prev` of the head. -/
theorem insert_step_frame {self : skiplist_t} {w : World} {es : List AEntry} {L0 : Nat}
    (hr : Represents w.heap { self with max_num_levels := L0 } es) (v : Int)
    (hM1 : 1 ≤ self.max_num_levels) (hM2 : self.max_num_levels < 256) :
    (∃ w1 es1, skiplist_insert self v w = .ok (self, w1) ∧
        Represents w1.heap { self with max_num_levels := L0 } es1 ∧
        (∀ a ∈ es1, a.id = w.heap.length ∨ ∃ b ∈ es, b.id = a.id) ∧
        w.heap.size ≤ w1.heap.size ∧ w.heap.length < w1.heap.length ∧
        (∀ x : Ptr, x.entry < w.heap.length → (∀ a ∈ es, x.entry ≠ a.id) →
          w1.heap.get x = w.heap.get x)) ∨
      (L0 < self.max_num_levels ∧ skiplist_insert self v w = .error .null_deref) := by
  have hrange := generate_level_bounds self.max_num_levels self.p w.gen hM1
  obtain ⟨a0, rest, hes⟩ := List.exists_cons_of_ne_nil hr.nonempty
  subst hes
  have hhd : self.head = some ⟨a0.id, 0⟩ := by simpa using hr.head_eq
  unfold skiplist_insert
  generalize generate_level_for_new_node self.max_num_levels self.p w.gen = r at hrange ⊢
  obtain ⟨L, g1⟩ := r
  simp only at hrange ⊢
  have hmod : L % 256 = L := Nat.mod_eq_of_lt (by omega)
  rw [hmod]
  have hc := insert_with_level_congr { self with max_num_levels := L0 } self ⟨a0.id, 0⟩
    hhd hhd v L w.heap
  by_cases hL : L ≤ L0
  · obtain ⟨h1, b0, rest0, a1, A, b, C, i1, i2, i3, i4, _, _, i7, i8, i9⟩ :=
      insert_with_level_frame hr v L hrange.1 hL
    rw [i1] at hc
    left
    refine ⟨⟨h1, g1⟩, _, ?_, i7, ?_, i8, ?_, i9⟩
    · rw [hc]
    · intro a ha
      have ha2 : a = ⟨w.heap.length, L, max v b0.value⟩ ∨ a ∈ a1 :: rest0 := by
        rw [i4]
        simp at ha ⊢
        tauto
      rcases ha2 with ha2 | ha2
      · left; rw [ha2]
      · right
        simp at ha2
        rcases ha2 with ha2 | ha2
        · exact ⟨b0, by rw [i2]; simp, by rw [ha2, i3]⟩
        · exact ⟨a, by rw [i2]; simp [ha2], rfl⟩
    · exact ids_lt_of_represents i7 ⟨w.heap.length, L, max v b0.value⟩ (by simp)
  · have i1 := insert_with_level_overflow hr v L (by show L0 < L; omega)
    rw [i1] at hc
    right
    refine ⟨by omega, ?_⟩
    rw [hc]

/-- A successful insertion into list `k` that writes only to the Entries of that
list and to its new allocation keeps the program state coherent. -/
theorem coherent_put {P : Process} {ess : Nat → List AEntry} (hc : Coherent P ess)
    {k : Nat} {s1 : skiplist_t} {w1 : World} {es1 : List AEntry}
    (h1 : Settled w1.heap s1 es1)
    (h2 : ∀ a ∈ es1, a.id = P.world.heap.length ∨ ∃ b ∈ ess k, b.id = a.id)
    (h3 : P.world.heap.size ≤ w1.heap.size) (h4 : P.world.heap.length < w1.heap.length)
    (h5 : ∀ x : Ptr, x.entry < P.world.heap.length → (∀ a ∈ ess k, x.entry ≠ a.id) →
      w1.heap.get x = P.world.heap.get x)
    (h6 : ∀ a ∈ es1, a.id < w1.heap.length) :
    Coherent { lists := P.lists.set k s1, world := w1 }
      (fun j => if j = k then es1 else ess j) := by
  refine ⟨fun j sl hj => ?_, fun i j hij a ha b hb => ?_, fun j a ha => ?_⟩
  · simp only [List.getElem?_set] at hj
    by_cases hjk : j = k
    · subst hjk
      rw [if_pos rfl] at hj ⊢
      split at hj
      · injection hj with hj
        rw [← hj]
        exact h1
      · exact absurd hj (by simp)
    · rw [if_neg (fun hc => hjk hc.symm)] at hj
      rw [if_neg hjk]
      refine settled_frame (hc.settled j sl hj) (fun a ha l => ?_) h3
      exact h5 ⟨a.id, l⟩ (hc.allocated j a ha) (fun b hb => hc.apart j k hjk a ha b hb)
  · have key : ∀ j, j ≠ k → ∀ a ∈ es1, ∀ b ∈ ess j, a.id ≠ b.id := by
      intro j hjk a ha b hb
      rcases h2 a ha with h | ⟨c, hc1, hc2⟩
      · have := hc.allocated j b hb
        omega
      · rw [← hc2]
        exact hc.apart k j (fun hc => hjk hc.symm) c hc1 b hb
    by_cases hik : i = k
    · subst hik
      rw [if_pos rfl] at ha
      rw [if_neg (fun hc => hij hc.symm)] at hb
      exact key j (fun hc => hij hc.symm) a ha b hb
    · rw [if_neg hik] at ha
      by_cases hjk : j = k
      · subst hjk
        rw [if_pos rfl] at hb
        exact fun he => key i hik b hb a ha he.symm
      · rw [if_neg hjk] at hb
        exact hc.apart i j hij a ha b hb
  · by_cases hjk : j = k
    · subst hjk
      rw [if_pos rfl] at ha
      exact h6 a ha
    · rw [if_neg hjk] at ha
      have := hc.allocated j a ha
      show a.id < w1.heap.length
      omega

/-- One call on a coherent program state either leaves a coherent state or stops
on the NULL `prev` of a head in the splice loop. -/
theorem call_coherent {P : Process} {ess : Nat → List AEntry} (hc : Coherent P ess)
    (c : Call) (hin : c.in_range = true) :
    (∃ P1 ess1, call P c = .ok P1 ∧ Coherent P1 ess1) ∨ call P c = .error .null_deref := by
  cases c with
  | new_skiplist M p =>
    left
    simp only [Call.in_range, Bool.and_eq_true, decide_eq_true_eq] at hin
    refine ⟨_, fun j => if j = P.lists.length then [] else ess j, rfl,
      ⟨fun j sl hj => ?_, fun i j hij a ha b hb => ?_, fun j a ha => ?_⟩⟩
    · simp only [List.getElem?_append] at hj
      by_cases hjl : j < P.lists.length
      · rw [if_pos hjl] at hj
        rw [if_neg (by omega)]
        exact hc.settled j sl hj
      · rw [if_neg hjl] at hj
        have hj0 : j = P.lists.length := by
          by_contra hne
          have : 1 ≤ j - P.lists.length := by omega
          rw [List.getElem?_eq_none (by simpa using this)] at hj
          exact absurd hj (by simp)
        subst hj0
        simp at hj
        rw [if_pos rfl, ← hj]
        exact ⟨hin.1, hin.2, Or.inl ⟨rfl, rfl⟩⟩
    · by_cases h1 : i = P.lists.length
      · rw [if_pos h1] at ha; simp at ha
      · rw [if_neg h1] at ha
        by_cases h2 : j = P.lists.length
        · rw [if_pos h2] at hb; simp at hb
        · rw [if_neg h2] at hb
          exact hc.apart i j hij a ha b hb
    · by_cases h1 : j = P.lists.length
      · rw [if_pos h1] at ha; simp at ha
      · rw [if_neg h1] at ha
        exact hc.allocated j a ha
  | skiplist_insert k v =>
    cases hk : P.lists[k]? with
    | none => exact Or.inl ⟨P, ess, by simp only [call, hk], hc⟩
    | some self =>
      have hcall : call P (Call.skiplist_insert k v) =
          match skiplist_insert self v P.world with
          | .error e => .error e
          | .ok (self1, w1) => .ok { lists := P.lists.set k self1, world := w1 } := by
        simp only [call, hk]
      rw [hcall]
      obtain ⟨hM1, hM2, hs⟩ := hc.settled k self hk
      rcases hs with ⟨hnone, hes⟩ | ⟨L0, hr⟩
      · obtain ⟨L, g1, f1, f2⟩ := first_insert_frame self v P.world hnone hM1 hM2
        rw [f1]
        left
        refine ⟨_, _, rfl, @coherent_put P ess hc k _ _ [⟨P.world.heap.length, L, v⟩]
          ⟨hM1, hM2, Or.inr ⟨L, f2⟩⟩ ?_ ?_ ?_ ?_ ?_⟩
        · intro a ha; simp at ha; left; rw [ha]
        · show P.world.heap.size ≤ (P.world.heap ++ [init_nodes L v]).size
          rw [size_append]; omega
        · show P.world.heap.length < (P.world.heap ++ [init_nodes L v]).length
          simp
        · intro x hx _
          exact get_append_old _ _ x hx
        · intro a ha
          simp at ha
          rw [ha]
          show P.world.heap.length < (P.world.heap ++ [init_nodes L v]).length
          simp
      · rcases insert_step_frame hr v hM1 hM2 with ⟨w1, es1, s1, s2, s3, s4, s5, s6⟩ | ⟨_, s1⟩
        · rw [s1]
          left
          exact ⟨_, _, rfl, coherent_put hc ⟨hM1, hM2, Or.inr ⟨L0, s2⟩⟩ s3 s4 s5 s6
            (ids_lt_of_represents s2)⟩
        · rw [s1]
          exact Or.inr rfl

/-- A program run from a coherent state either ends in a coherent state or stops
on the NULL `prev` of a head in the splice loop. -/
theorem calls_coherent : ∀ (cs : List Call) (P : Process) (ess : Nat → List AEntry),
    Coherent P ess → cs.all Call.in_range = true →
    (∃ P1 ess1, calls cs P = .ok P1 ∧ Coherent P1 ess1) ∨ calls cs P = .error .null_deref := by
  intro cs
  induction cs with
  | nil => intro P ess hc _; exact Or.inl ⟨P, ess, rfl, hc⟩
  | cons c t ih =>
    intro P ess hc hin
    simp only [List.all_cons, Bool.and_eq_true] at hin
    rcases call_coherent hc c hin.1 with ⟨P1, ess1, c1, c2⟩ | c1
    · rw [calls, c1]
      exact ih P1 ess1 c2 hin.2
    · right
      rw [calls, c1]

/-- A program that has not yet created a list is coherent, whatever the heap
and the level generator hold. -/
theorem coherent_start (w0 : World) : Coherent ⟨[], w0⟩ (fun _ => []) :=
  ⟨fun k sl hk => by simp at hk, fun _ _ _ a ha => by simp at ha, fun _ a ha => by simp at ha⟩

/-- A program that goes on filling its only list is a run of `insert_all`. -/
theorem calls_on_one_list : ∀ (vs : List Int) (self : skiplist_t) (w : World),
    calls (vs.map (Call.skiplist_insert 0)) ⟨[self], w⟩ =
      match insert_all vs self w with
      | .error e => .error e
      | .ok (self1, w1) => .ok ⟨[self1], w1⟩ := by
  intro vs
  induction vs with
  | nil => intro self w; rfl
  | cons v t ih =>
    intro self w
    simp only [List.map_cons, calls, call, insert_all, List.getElem?_cons_zero]
    cases skiplist_insert self v w with
    | error e => rfl
    | ok r =>
      obtain ⟨s1, w1⟩ := r
      simp only [List.set_cons_zero]
      exact ih s1 w1

/-- A program that creates one list and fills it is a run of `insert_all` on a new
list: the runs of the other theorems are programs. -/
theorem calls_one_list (M : Nat) (p : Nat → Bool) (vs : List Int) (w0 : World) :
    calls (Call.new_skiplist M p :: vs.map (Call.skiplist_insert 0)) ⟨[], w0⟩ =
      match insert_all vs (new_skiplist M p) w0 with
      | .error e => .error e
      | .ok (self1, w1) => .ok ⟨[self1], w1⟩ := by
  rw [calls]
  exact calls_on_one_list vs (new_skiplist M p) w0

/-- C17: `skiplist_insert` never violates the precondition of the predecessor
search. Take any program, that is any sequence of `new_skiplist` calls (with
`1 <= num_levels <= 255`) and `skiplist_insert` calls on any number of lists in
any order, started in any state of the process (any heap, first-call flag set or
cleared, any `rand()` stream). Either the program stops in the splice loop on the
NULL `prev` of a head, or it reaches a state in which, for every non-empty list
and every value `v`, the next `skiplist_insert` of `v` arrives at its call of
`_skiplist_find_headnode_predecessor` (line 135) with a head that is not NULL and
a start node `head + num_levels - 1` that can be read and whose value is `<=`
the value searched, and the search returns: neither assertion of lines 72-73
fails. After the search that insertion returns, unless it stops in the splice
loop on the NULL `prev` of the head, which happens only to a head with fewer than
`max_num_levels` levels. -/
theorem insert_meets_search_precondition (cs : List Call) (w0 : World)
    (hcs : cs.all Call.in_range = true) :
    calls cs ⟨[], w0⟩ = .error .null_deref ∨
    ∃ P, calls cs ⟨[], w0⟩ = .ok P ∧
      ∀ (k : Nat) (self : skiplist_t) (head : Ptr) (v : Int),
        P.lists[k]? = some self → self.head = some head →
        ∃ h1 v1 top n,
          displace_head
            (P.world.heap ++ [init_nodes
              ((generate_level_for_new_node self.max_num_levels self.p P.world.gen).1 % 256) v])
            head ⟨P.world.heap.length, 0⟩ v = .ok (h1, v1) ∧
          top_of h1 head = .ok top ∧ load h1 top = .ok n ∧ n.value ≤ v1 ∧
          (∃ r, _skiplist_find_headnode_predecessor h1 top v1 = .ok r) ∧
          ((∃ res, skiplist_insert self v P.world = .ok res) ∨
            (skiplist_insert self v P.world = .error .null_deref ∧
              ∃ n0, load P.world.heap head = .ok n0 ∧
                n0.num_levels < self.max_num_levels)) := by
  rcases calls_coherent cs ⟨[], w0⟩ _ (coherent_start w0) hcs with ⟨P, ess, r1, hc⟩ | herr
  · right
    refine ⟨P, r1, fun k self head v hk hhead => ?_⟩
    obtain ⟨hM1, hM2, hs⟩ := hc.settled k self hk
    rcases hs with ⟨hnone, _⟩ | ⟨L0, hr⟩
    · rw [hnone] at hhead
      exact absurd hhead (by simp)
    · obtain ⟨a0, rest, hes⟩ := List.exists_cons_of_ne_nil hr.nonempty
      rw [hes] at hr
      have hhd : self.head = some ⟨a0.id, 0⟩ := by simpa using hr.head_eq
      have hh : head = ⟨a0.id, 0⟩ := by
        rw [hhd] at hhead
        injection hhead with hhead
        exact hhead.symm
      subst hh
      have hrange := generate_level_bounds self.max_num_levels self.p P.world.gen hM1
      have hmod : (generate_level_for_new_node self.max_num_levels self.p P.world.gen).1 % 256 =
          (generate_level_for_new_node self.max_num_levels self.p P.world.gen).1 :=
        Nat.mod_eq_of_lt (by omega)
      obtain ⟨h1, v1, top, n, s1, s2, s3, s4, s5⟩ :=
        search_precondition_of_represents hr v
          ((generate_level_for_new_node self.max_num_levels self.p P.world.gen).1 % 256)
          (by rw [hmod]; exact hrange.1)
      refine ⟨h1, v1, top, n, s1, s2, s3, s4, s5, ?_⟩
      rcases insert_step_frame hr v hM1 hM2 with ⟨w1, _, i1, _⟩ | ⟨hshort, i1⟩
      · exact Or.inl ⟨_, i1⟩
      · have hn0 := node_of_linked (A := []) (hr.linked 0) rfl (hr.levels_pos a0 (by simp))
        refine Or.inr ⟨i1, _, load_eq_ok hn0, ?_⟩
        show a0.levels < self.max_num_levels
        rw [hr.head_levels a0 rfl]
        exact hshort
  · exact Or.inl herr

theorem insert_meets_search_precondition_witness :
    ([Call.new_skiplist 2 p_half, Call.skiplist_insert 0 1, Call.new_skiplist 2 p_half,
        Call.skiplist_insert 1 7, Call.skiplist_insert 0 5].all Call.in_range = true) ∧
    ((match calls [Call.new_skiplist 2 p_half, Call.skiplist_insert 0 1,
          Call.new_skiplist 2 p_half, Call.skiplist_insert 1 7, Call.skiplist_insert 0 5]
          ⟨[], fresh (fun _ => 99)⟩ with
      | Except.error e => Except.error e
      | Except.ok P => Except.ok (P.lists.map (fun s => s.head), P.world.heap)) =
      Except.ok ([some ⟨0, 0⟩, some ⟨1, 0⟩],
        [[⟨some ⟨2, 0⟩, none, 0, 2, 1⟩, ⟨none, none, 1, 2, 1⟩],
          [⟨none, none, 0, 1, 7⟩],
          [⟨none, some ⟨0, 0⟩, 0, 1, 5⟩]])) ∧
    (calls [Call.new_skiplist 2 p_half, Call.skiplist_insert 0 1, Call.new_skiplist 2 p_half,
        Call.skiplist_insert 1 7, Call.skiplist_insert 0 5] ⟨[], fresh (fun _ => 99)⟩ =
        .error .null_deref ∨
    ∃ P, calls [Call.new_skiplist 2 p_half, Call.skiplist_insert 0 1,
        Call.new_skiplist 2 p_half, Call.skiplist_insert 1 7, Call.skiplist_insert 0 5]
        ⟨[], fresh (fun _ => 99)⟩ = .ok P ∧
      ∀ (k : Nat) (self : skiplist_t) (head : Ptr) (v : Int),
        P.lists[k]? = some self → self.head = some head →
        ∃ h1 v1 top n,
          displace_head
            (P.world.heap ++ [init_nodes
              ((generate_level_for_new_node self.max_num_levels self.p P.world.gen).1 % 256) v])
            head ⟨P.world.heap.length, 0⟩ v = .ok (h1, v1) ∧
          top_of h1 head = .ok top ∧ load h1 top = .ok n ∧ n.value ≤ v1 ∧
          (∃ r, _skiplist_find_headnode_predecessor h1 top v1 = .ok r) ∧
          ((∃ res, skiplist_insert self v P.world = .ok res) ∨
            (skiplist_insert self v P.world = .error .null_deref ∧
              ∃ n0, load P.world.heap head = .ok n0 ∧
                n0.num_levels < self.max_num_levels))) :=
  ⟨by decide, by decide,
    insert_meets_search_precondition _ (fresh (fun _ => 99)) (by decide)⟩

end Skiplist
